import Mathlib

/-!
# Aptomi: component ordering, apply engine, dependency registry, configuration, raw plugin

A shallow embedding of

* `pkg/lang/service.go` (lazy component map, depth-first topological sort of the
  components of a service),
* `pkg/engine/apply/engine_apply.go` (execution of an action plan),
* `pkg/slinga/language/dependency.go` (dependencies and their registry),
* `cmd/common/config.go` (reading the configuration),
* `pkg/plugin/k8sraw/plugin.go` (the Kubernetes raw code plugin),

followed by theorems about the embedded functions.

Conventions: a Go `map[string]T` is a finite association between keys and values
(`GoMap`), a nil slice is the empty list, a Go `error` is `Option String`
(`none` is the nil error, `some msg` an error with message `msg`), and a mutated
receiver is passed in and returned explicitly.
-/

namespace Aptomi

/-! # Definitions -/

/-! ## Go maps with string keys -/

/-- A Go `map[string]β`: association list holding at most one entry per key. -/
abbrev GoMap (β : Type) := List (String × β)

namespace GoMap

/-- The result of `make(map[string]β)`. -/
def empty {β : Type} : GoMap β := []

/-- The two-valued lookup `v, ok := m[k]`: `none` when the key is absent. -/
def get {β : Type} : GoMap β → String → Option β
  | [], _ => none
  | (k', v) :: m, k => if k' = k then some v else get m k

/-- The removal `delete(m, k)`. -/
def erase {β : Type} : GoMap β → String → GoMap β
  | [], _ => []
  | (k', v) :: m, k => if k' = k then erase m k else (k', v) :: erase m k

/-- The assignment `m[k] = v`. -/
def set {β : Type} (m : GoMap β) (k : String) (v : β) : GoMap β :=
  (k, v) :: m.erase k

end GoMap

/-! ## `pkg/lang/service.go` -/

/-- Code with type and parameters (`Params` is a nested parameter map of `pkg/util`;
the sort never inspects it, it is kept as a flat list of rendered entries). -/
structure Code where
  CodeType : String
  Params : List (String × String)
deriving DecidableEq, Repr

/-- ServiceComponent defines a component within a service. -/
structure ServiceComponent where
  Name : String
  Contract : String
  Code : Option Code
  Discovery : List (String × String)
  Dependencies : List String
deriving DecidableEq, Repr

/-- Service defines an individual service. `Name` is the name held by the embedded
`Metadata`. The last five fields are the lazily evaluated ones: each `sync.Once` is
the flag telling whether its body has already run. -/
structure Service where
  Name : String
  Labels : List (String × String)
  Components : List ServiceComponent
  componentsOrderedOnce : Bool
  componentsOrderedErr : Option String
  componentsOrdered : List ServiceComponent
  componentsMapOnce : Bool
  componentsMap : GoMap ServiceComponent

/-- A service as it is after construction or decoding: only the exported fields are
set, the lazily evaluated ones hold their zero value. -/
def Service.new (name : String) (labels : List (String × String))
    (components : List ServiceComponent) : Service :=
  { Name := name, Labels := labels, Components := components,
    componentsOrderedOnce := false, componentsOrderedErr := none, componentsOrdered := [],
    componentsMapOnce := false, componentsMap := GoMap.empty }

/-- The body of the `componentsMapOnce.Do` call: put all components into a map. -/
def buildComponentsMap (components : List ServiceComponent) : GoMap ServiceComponent :=
  components.foldl (fun m c => m.set c.Name c) GoMap.empty

/-- GetComponentsMap lazily initializes and returns a map of name -> component. -/
def Service.GetComponentsMap (service : Service) : GoMap ServiceComponent × Service :=
  if service.componentsMapOnce then (service.componentsMap, service)
  else
    let m := buildComponentsMap service.Components
    (m, { service with componentsMapOnce := true, componentsMap := m })

/-- The mutable data of one run of the sort: the service (receiver) and the local
`colors` map of `GetComponentsSortedTopologically`. -/
structure SortState where
  service : Service
  colors : GoMap Nat

/-- Message of the error for a dependency on a name that is no component. -/
def errNonExisting (serviceName vName : String) : String :=
  "service '" ++ serviceName ++ "' has a dependency on non-existing component '" ++ vName ++ "'"

/-- Message of the error for a dependency on a component that is in progress. -/
def errCycle (serviceName vName : String) : String :=
  "component cycle detected while processing service '" ++ serviceName ++
    "' component '" ++ vName ++ "'"

/-- The loop `for _, vName := range u.Dependencies` of `dfsComponentSort`; `visit` is
the recursive call. The outer `Option` is `none` when a recursive call did not return
within its budget of nested calls. -/
def dfsDependencies
    (visit : ServiceComponent → SortState → Option (Option String × SortState)) :
    List String → SortState → Option (Option String × SortState)
  | [], st => some (none, st)
  | vName :: rest, st =>
    let st1 : SortState := { st with service := st.service.GetComponentsMap.2 }
    match st.service.GetComponentsMap.1.get vName with
    | none => some (some (errNonExisting st1.service.Name vName), st1)
    | some v =>
      match st1.colors.get v.Name with
      | none =>
        match visit v st1 with
        | none => none
        | some (some err, st2) => some (some err, st2)
        | some (none, st2) => dfsDependencies visit rest st2
      | some vColor =>
        if vColor = 1 then some (some (errCycle st1.service.Name vName), st1)
        else dfsDependencies visit rest st1

/-- Topologically sort components of a given service and return an error if there is a
cycle detected. The first argument bounds the depth of nested calls. -/
def dfsComponentSort :
    Nat → ServiceComponent → SortState → Option (Option String × SortState)
  | 0, _, _ => none
  | fuel + 1, u, st =>
    match dfsDependencies (dfsComponentSort fuel) u.Dependencies
        { st with colors := st.colors.set u.Name 1 } with
    | none => none
    | some (some err, st2) => some (some err, st2)
    | some (none, st2) =>
      some (none,
        { service :=
            { st2.service with componentsOrdered := st2.service.componentsOrdered ++ [u] },
          colors := st2.colors.set u.Name 2 })

/-- The loop `for _, c := range service.Components` in the body run by
`componentsOrderedOnce`; on an error the ordered list is reset, the error is stored
and the loop is left. -/
def sortComponents (fuel : Nat) : List ServiceComponent → SortState → Option SortState
  | [], st => some st
  | c :: rest, st =>
    match st.colors.get c.Name with
    | some _ => sortComponents fuel rest st
    | none =>
      match dfsComponentSort fuel c st with
      | none => none
      | some (some err, st2) =>
        some { st2 with
          service := { st2.service with componentsOrdered := [], componentsOrderedErr := some err } }
      | some (none, st2) => sortComponents fuel rest st2

/-- Number of nested `dfsComponentSort` calls granted to one run: every nested call
colours the so far uncoloured name of a value of the component map, so one more than
the number of entries of the map is never exceeded. -/
def sortFuel (service : Service) : Nat :=
  service.GetComponentsMap.1.length + 1

/-- GetComponentsSortedTopologically returns all components sorted in a topological
order, with the stored error. The result is `none` only if the run exceeded
`sortFuel`. -/
def Service.GetComponentsSortedTopologically (service : Service) :
    Option ((List ServiceComponent × Option String) × Service) :=
  if service.componentsOrderedOnce then
    some ((service.componentsOrdered, service.componentsOrderedErr), service)
  else
    match sortComponents (sortFuel service) service.Components
        { service := service, colors := GoMap.empty } with
    | none => none
    | some st =>
      let service1 : Service := { st.service with componentsOrderedOnce := true }
      some ((service1.componentsOrdered, service1.componentsOrderedErr), service1)

/-! ### The traversal over the data it reads and writes

`dfsComponentSort` reads the component map and the name of the service, and writes
`colors` and `componentsOrdered`. The functions below are the same traversal over that
projection of the state; `dfsComponentSort_core` relates the two. -/

/-- The part of the state the traversal writes. -/
structure Core where
  colors : GoMap Nat
  ordered : List ServiceComponent

/-- Projection of a sort state. -/
def SortState.core (st : SortState) : Core :=
  { colors := st.colors, ordered := st.service.componentsOrdered }

/-- The dependency loop over the projected state, for a fixed component map. -/
def coreDependencies (M : GoMap ServiceComponent) (nm : String)
    (visit : ServiceComponent → Core → Option (Option String × Core)) :
    List String → Core → Option (Option String × Core)
  | [], σ => some (none, σ)
  | vName :: rest, σ =>
    match M.get vName with
    | none => some (some (errNonExisting nm vName), σ)
    | some v =>
      match σ.colors.get v.Name with
      | none =>
        match visit v σ with
        | none => none
        | some (some err, σ2) => some (some err, σ2)
        | some (none, σ2) => coreDependencies M nm visit rest σ2
      | some vColor =>
        if vColor = 1 then some (some (errCycle nm vName), σ)
        else coreDependencies M nm visit rest σ

/-- The traversal over the projected state, for a fixed component map. -/
def coreSort (M : GoMap ServiceComponent) (nm : String) :
    Nat → ServiceComponent → Core → Option (Option String × Core)
  | 0, _, _ => none
  | fuel + 1, u, σ =>
    match coreDependencies M nm (coreSort M nm fuel) u.Dependencies
        { σ with colors := σ.colors.set u.Name 1 } with
    | none => none
    | some (some err, σ2) => some (some err, σ2)
    | some (none, σ2) =>
      some (none, { colors := σ2.colors.set u.Name 2, ordered := σ2.ordered ++ [u] })

/-- The loop over `service.Components` over the projected state; the first component is
the error that left the loop, if any. -/
def coreComponents (M : GoMap ServiceComponent) (nm : String) (fuel : Nat) :
    List ServiceComponent → Core → Option (Option String × Core)
  | [], σ => some (none, σ)
  | c :: rest, σ =>
    match σ.colors.get c.Name with
    | some _ => coreComponents M nm fuel rest σ
    | none =>
      match coreSort M nm fuel c σ with
      | none => none
      | some (some err, σ2) => some (some err, σ2)
      | some (none, σ2) => coreComponents M nm fuel rest σ2

/-! ### Notions used in the statements and their proofs -/

/-- How a successful run changes the colours: a coloured name keeps its colour, an
uncoloured name stays uncoloured or ends with colour 2. -/
structure ColorsGrow (c c' : GoMap Nat) : Prop where
  keep : ∀ n, c.get n ≠ none → c'.get n = c.get n
  fresh : ∀ n, c.get n = none → c'.get n = none ∨ c'.get n = some 2

/-- Number of entries of the component map whose value bears an uncoloured name. -/
def uncoloured (M : GoMap ServiceComponent) (c : GoMap Nat) : Nat :=
  M.countP (fun p => (c.get p.2.Name).isNone)

/-- Topological order of a list of components: every dependency of the component at a
position is the name of a component at an earlier position. -/
def TopologicalOrder (l : List ServiceComponent) : Prop :=
  ∀ (i : Nat) (x : ServiceComponent), l[i]? = some x → ∀ d ∈ x.Dependencies,
    ∃ (j : Nat) (y : ServiceComponent), j < i ∧ l[j]? = some y ∧ y.Name = d

/-- The invariant of the traversal: the ordered list is a topological order, holds a
component for every name whose colour is not 1, holds only components whose name has
colour 2, holds no name twice, and holds only components satisfying `U`. -/
structure Inv (U : ServiceComponent → Prop) (σ : Core) : Prop where
  topo : TopologicalOrder σ.ordered
  done : ∀ n k, σ.colors.get n = some k → k ≠ 1 → ∃ x ∈ σ.ordered, x.Name = n
  colored : ∀ x ∈ σ.ordered, σ.colors.get x.Name = some 2
  nodup : (σ.ordered.map (fun x => x.Name)).Nodup
  sub : ∀ x ∈ σ.ordered, U x

/-- The component map is keyed by the names of its values. -/
def WellKeyed (M : GoMap ServiceComponent) : Prop :=
  ∀ k v, M.get k = some v → v.Name = k

/-- What the traversal leaves of the service: everything but `componentsOrdered` and
the (still equal) cached component map. -/
structure Frame (s0 s : Service) : Prop where
  name : s.Name = s0.Name
  labels : s.Labels = s0.Labels
  comps : s.Components = s0.Components
  once : s.componentsOrderedOnce = s0.componentsOrderedOnce
  err : s.componentsOrderedErr = s0.componentsOrderedErr
  map : s.GetComponentsMap.1 = s0.GetComponentsMap.1

/-- Projection of a result of the traversal. -/
def projResult (r : Option String × SortState) : Option String × Core := (r.1, r.2.core)

/-- Relation between a run of the loop over the components and its projection. -/
def SortSim (s0 : Service) (r : Option SortState) (rc : Option (Option String × Core)) :
    Prop :=
  match rc with
  | none => r = none
  | some (none, σ') => ∃ st', r = some st' ∧ st'.core = σ' ∧ Frame s0 st'.service
  | some (some e, _) => ∃ st', r = some st' ∧ st'.service.componentsOrdered = [] ∧
      st'.service.componentsOrderedErr = some e ∧ st'.service.Name = s0.Name ∧
      st'.service.Labels = s0.Labels ∧ st'.service.Components = s0.Components ∧
      st'.service.GetComponentsMap.1 = s0.GetComponentsMap.1

/-- One component of the list depends on another: it lists the other's name. -/
def DependsOn (cs : List ServiceComponent) (a b : ServiceComponent) : Prop :=
  a ∈ cs ∧ b ∈ cs ∧ b.Name ∈ a.Dependencies

/-- Every name being processed (colour 1) is the name of a component from which the
component `u` is reached along dependencies. -/
def GrayReach (cs : List ServiceComponent) (c : GoMap Nat) (u : ServiceComponent) : Prop :=
  ∀ n, c.get n = some 1 →
    ∃ x ∈ cs, x.Name = n ∧ Relation.ReflTransGen (DependsOn cs) x u

/-- The run of the loop over the components that the first call performs, projected. -/
def firstRun (s : Service) : Option (Option String × Core) :=
  coreComponents s.GetComponentsMap.1 s.Name (sortFuel s) s.Components
    { colors := GoMap.empty, ordered := s.componentsOrdered }

/-! ### Services in use -/

/-- What a client of the package can do with a service: assign its exported fields and
call its two getters. -/
inductive ServiceOp where
  | assign (name : String) (labels : List (String × String))
      (components : List ServiceComponent)
  | getComponentsMap
  | getComponentsSortedTopologically

/-- The service after one operation (`none`: the call exceeded its budget). -/
def Service.apply (s : Service) : ServiceOp → Option Service
  | .assign name labels components =>
    some { s with Name := name, Labels := labels, Components := components }
  | .getComponentsMap => some s.GetComponentsMap.2
  | .getComponentsSortedTopologically => s.GetComponentsSortedTopologically.map Prod.snd

/-- The service after a sequence of operations. -/
def Service.run (s : Service) : List ServiceOp → Option Service
  | [] => some s
  | op :: ops =>
    match s.apply op with
    | none => none
    | some s1 => s1.run ops

/-- A service is reachable when it results from a newly constructed service by a
sequence of operations. -/
def Service.Reachable (s : Service) : Prop :=
  ∃ name labels components ops, (Service.new name labels components).run ops = some s

/-- The ordering of the service has not been computed yet, and its component map, if it
was asked for already, is the map of its current components. -/
def Service.Unsorted (s : Service) : Prop :=
  s.componentsOrderedOnce = false ∧ s.componentsOrdered = [] ∧
    s.componentsOrderedErr = none ∧
    s.GetComponentsMap.1 = buildComponentsMap s.Components

/-- Invariant of the services in use. -/
structure Service.WF (s : Service) : Prop where
  keyed : WellKeyed s.GetComponentsMap.1
  unsorted : s.componentsOrderedOnce = false →
    s.componentsOrdered = [] ∧ s.componentsOrderedErr = none
  sorted : s.componentsOrderedOnce = true → s.componentsOrderedErr = none →
    TopologicalOrder s.componentsOrdered

/-! ### Component lists of the validation test -/

/-- A component with a name and dependencies, nothing else set. -/
def mkComponent (name : String) (deps : List String) : ServiceComponent :=
  { Name := name, Contract := "", Code := none, Discovery := [], Dependencies := deps }

/-- Three components, each depending on the one listed after it. -/
def reversedComponents : List ServiceComponent :=
  [mkComponent "a" ["b"], mkComponent "b" ["c"], mkComponent "c" []]

/-- The components the validation test makes: component `i` depends on all components
`j < i` (here three of them). -/
def testComponents : List ServiceComponent :=
  [mkComponent "component-0" [], mkComponent "component-1" ["component-0"],
   mkComponent "component-2" ["component-0", "component-1"]]

/-- The test's `claimsCycle`: every component depends on itself. -/
def cycleComponents : List ServiceComponent :=
  [mkComponent "component-0" ["component-0"], mkComponent "component-1" ["component-1"]]

/-- The test's `claimsInvalid`: every component depends on the name `invalid`. -/
def invalidComponents : List ServiceComponent :=
  [mkComponent "component-0" ["invalid"], mkComponent "component-1" ["invalid"]]

/-! ### Error messages -/

/-- The message mentions the name: the name occurs in it (as a run of characters). -/
def Mentions (msg name : String) : Prop :=
  List.IsInfix name.data msg.data

/-- The two components of the cycle `a → b → a`. -/
def twoCycleComponents : List ServiceComponent :=
  [mkComponent "a" ["b"], mkComponent "b" ["a"]]

/-! ### The depth of the traversal -/

/-- The number of distinct names among the components. -/
def distinctNames (components : List ServiceComponent) : Nat :=
  (components.map (fun c => c.Name)).dedup.length

/-! ## `pkg/engine/apply/engine_apply.go` -/

/-- How a call of an action's `Apply` ends: it returns an error (possibly nil), or it
panics with a value, which `recover` yields and `%s` renders as `value`, while
`debug.Stack()` renders the stack as `stack`. The value is not nil: what `recover`
yields for a panic is non-nil (a `panic(nil)` reaches it as a `*runtime.PanicNilError`). -/
inductive Outcome where
  | returned (err : Option String)
  | panicked (value : String) (stack : String)
deriving DecidableEq, Repr

/-- The call did not end by returning the nil error. -/
def Outcome.failed : Outcome → Bool
  | .returned none => false
  | .returned (some _) => true
  | .panicked _ _ => true

/-- Modelled from the spec: `action.Base` is declared outside the listed sources. An
action has a `%s` rendering and an `Apply` that works on the action context `Ctx` (the
bundle of desired and actual state, state updater, external data, plugins and event
log) and ends in an `Outcome`. -/
structure Action (Ctx : Type) where
  name : String
  Apply : Ctx → Outcome × Ctx

/-- Modelled from the spec: `action.ApplyResult` is declared outside the listed
sources; it counts the actions by result. -/
structure ApplyResult where
  Success : Nat
  Failed : Nat
  Skipped : Nat
deriving DecidableEq, Repr

/-- Modelled from the spec: `action.Plan` is declared outside the listed sources. A plan
is taken in its most general sequential form: it either is finished with a result, or
hands an action to the callback and goes on depending on the error the callback
returned (so that it can skip the actions downstream of a failed one). -/
inductive Plan (Ctx : Type) where
  | finished (result : ApplyResult)
  | hand (act : Action Ctx) (next : Option String → Plan Ctx)

/-- Modelled from the spec: `Plan.Apply` walks the plan, calls the callback `fn` on every
action the plan hands out, and returns the result of the plan. `S` is the data the
callback works on. -/
def Plan.Apply {Ctx S : Type} (fn : Action Ctx → S → Option String × S) :
    Plan Ctx → S → ApplyResult × S
  | .finished result, s => (result, s)
  | .hand act next, s => (next (fn act s).1).Apply fn (fn act s).2

/-- Modelled from the spec: `action.Noop` is the callback that does nothing and
succeeds. -/
def Noop {Ctx : Type} : Action Ctx → Unit → Option String × Unit :=
  fun _ s => (none, s)

/-- Modelled from the spec: `action.WrapSequential` makes the calls of a callback mutually
exclusive; on the sequential walk of `Plan.Apply` it is the callback itself. -/
def WrapSequential {Ctx S : Type} (fn : Action Ctx → S → Option String × S) :
    Action Ctx → S → Option String × S :=
  fn

/-- What happens during `EngineApply.Apply`, in order: the calls on the progress
indicator and on the event log, and (as a record for the statements below) the calls of
`Apply` on actions with their outcome. -/
inductive Event where
  | setTotal (total : Nat)
  | advance
  | done (success : Bool)
  | logError (msg : String)
  | executed (action : String) (outcome : Outcome)
deriving DecidableEq, Repr

/-- EngineApply executes actions to get from an actual state to desired state. `context`
stands for the references to desired and actual objects, which `Apply` bundles into the
action context. -/
structure EngineApply (Ctx : Type) where
  context : Ctx
  actionPlan : Plan Ctx

/-- The data the callback of `EngineApply.Apply` works on: the action context, the
events so far, and the captured variable `foundErrors`. -/
structure ApplyState (Ctx : Type) where
  context : Ctx
  events : List Event
  foundErrors : Bool

/-- The three results of `EngineApply.Apply`, with the events of the call. -/
structure ApplyOutput (Ctx : Type) where
  actualState : Ctx
  result : ApplyResult
  err : Option String
  events : List Event

/-- The error into which `executeAction` converts a panic. -/
def panicError (value stack : String) : String :=
  "panic: " ++ value ++ "\n" ++ stack

/-- Run an action, converting panics into errors. -/
def executeAction {Ctx : Type} (action : Action Ctx) (context : Ctx) : Option String × Ctx :=
  match action.Apply context with
  | (.returned err, context1) => (err, context1)
  | (.panicked value stack, context1) => (some (panicError value stack), context1)

/-- The callback `Apply` passes to the plan: advance the progress indicator, execute the
action, and on an error wrap it, log it and set `foundErrors`. -/
def applyAction {Ctx : Type} (act : Action Ctx) (st : ApplyState Ctx) :
    Option String × ApplyState Ctx :=
  let events1 := st.events ++ [Event.advance, Event.executed act.name (act.Apply st.context).1]
  match executeAction act st.context with
  | (some err, context1) =>
    let err1 := "error while applying action '" ++ act.name ++ "': " ++ err
    (some err1,
      { context := context1, events := events1 ++ [Event.logError err1], foundErrors := true })
  | (none, context1) =>
    (none, { context := context1, events := events1, foundErrors := st.foundErrors })

/-- Apply method executes all actions; actions call plugins to apply changes and roll
them out to the cloud. It returns the updated actual state, the result of the plan and
an error if there has been at least one error. -/
def EngineApply.Apply {Ctx : Type} (apply : EngineApply Ctx) : ApplyOutput Ctx :=
  let cnt := (apply.actionPlan.Apply Noop ()).1.Success
  let run := apply.actionPlan.Apply (WrapSequential applyAction)
    { context := apply.context, events := [Event.setTotal cnt], foundErrors := false }
  let events1 := run.2.events ++ [Event.done (!run.2.foundErrors)]
  if run.2.foundErrors then
    let err := "one or more errors occurred while running actions"
    { actualState := run.2.context, result := run.1, err := some err,
      events := events1 ++ [Event.logError err] }
  else
    { actualState := run.2.context, result := run.1, err := none, events := events1 }

/-- An executed action with a failed outcome is among the events. -/
def FailedIn (events : List Event) : Prop :=
  ∃ a o, Event.executed a o ∈ events ∧ o.failed = true

/-- An action whose `Apply` panics with the given value and stack. -/
def panickingAction (value stack : String) : Action Unit :=
  { name := "create", Apply := fun ctx => (Outcome.panicked value stack, ctx) }

/-- A plan of one action, which panics. -/
def panickingEngine : EngineApply Unit where
  context := ()
  actionPlan := Plan.hand (panickingAction "boom" "goroutine 1 [running]")
    (fun _ => Plan.finished ⟨0, 1, 0⟩)

/-! ### The progress indicator among the events -/

/-- The event is a call of `Advance`. -/
def Event.isAdvance : Event → Bool
  | .advance => true
  | _ => false

/-- The event is the execution of an action. -/
def Event.isExecuted : Event → Bool
  | .executed _ _ => true
  | _ => false

/-- The event is a call of `Done`. -/
def Event.isDone : Event → Bool
  | .done _ => true
  | _ => false

/-- Calls of `Advance` and executions of actions come in pairs: every `Advance` is
directly followed by an execution, and every execution directly follows an `Advance`. -/
def advanceBeforeEach : List Event → Bool
  | [] => true
  | Event.advance :: Event.executed _ _ :: rest => advanceBeforeEach rest
  | Event.advance :: _ => false
  | Event.executed _ _ :: _ => false
  | _ :: rest => advanceBeforeEach rest

/-- A plan of three actions that hands out the second only if the first succeeded. -/
def threeStepEngine : EngineApply Unit where
  context := ()
  actionPlan :=
    Plan.hand { name := "create a", Apply := fun ctx => (Outcome.returned (some "timeout"), ctx) }
      (fun err =>
        match err with
        | some _ =>
          Plan.hand { name := "create c", Apply := fun ctx => (Outcome.returned none, ctx) }
            (fun _ => Plan.finished ⟨1, 1, 1⟩)
        | none =>
          Plan.hand { name := "create b", Apply := fun ctx => (Outcome.returned none, ctx) }
            (fun _ =>
              Plan.hand { name := "create c", Apply := fun ctx => (Outcome.returned none, ctx) }
                (fun _ => Plan.finished ⟨3, 0, 0⟩)))

/-! ## `pkg/slinga/language/dependency.go` -/

/-- Modelled from the spec: `SlingaObject` is declared outside the listed sources; every
object carries its kind and, as metadata, its namespace and name, and `GetName` returns
the name. -/
structure SlingaObject where
  Kind : String
  Namespace : String
  Name : String
deriving DecidableEq, Repr

/-- The name of the object. -/
def SlingaObject.GetName (object : SlingaObject) : String := object.Name

/-- Dependency in a form <UserID> requested <Service> (and provided additional <Labels>).
The embedded `*SlingaObject` is `none` when nil. -/
structure Dependency where
  SlingaObject : Option SlingaObject
  Enabled : Bool
  UserID : String
  Service : String
  Labels : GoMap String
  Resolved : Bool
  ServiceKey : String
deriving DecidableEq, Repr

/-- The zero value of `Dependency`. -/
def Dependency.zero : Dependency :=
  { SlingaObject := none, Enabled := false, UserID := "", Service := "", Labels := [],
    Resolved := false, ServiceKey := "" }

/-- The promoted method `GetName`; on a nil embedded object the call panics
(`Except.error` carries the panic). -/
def Dependency.GetName (dependency : Dependency) : Except String String :=
  match dependency.SlingaObject with
  | none => .error "runtime error: invalid memory address or nil pointer dereference"
  | some object => .ok object.GetName

/-- The ID of a dependency is its name. -/
def Dependency.GetID (dependency : Dependency) : Except String String :=
  dependency.GetName

/-- UnmarshalYAML is a custom unmarshaller for Dependency, which sets Enabled to True
before unmarshalling. `unmarshal` fills the instance it is given from the document it
holds, or fails; the result is the returned error and the receiver afterwards. -/
def Dependency.UnmarshalYAML (dependency : Dependency)
    (unmarshal : Dependency → Except String Dependency) : Option String × Dependency :=
  match unmarshal { Dependency.zero with Enabled := true } with
  | .error err => (some err, dependency)
  | .ok inst => (none, inst)

/-- A YAML mapping for a dependency: for each field, the value the mapping gives, if it
mentions the field. -/
structure DependencyDocument where
  Enabled : Option Bool
  UserID : Option String
  Service : Option String
  Labels : Option (GoMap String)

/-- Decoding of a mapping into an instance: the fields the mapping mentions are
assigned, the others are left as they are. -/
def DependencyDocument.unmarshal (doc : DependencyDocument) (inst : Dependency) :
    Except String Dependency :=
  .ok { inst with
    Enabled := doc.Enabled.getD inst.Enabled, UserID := doc.UserID.getD inst.UserID,
    Service := doc.Service.getD inst.Service, Labels := doc.Labels.getD inst.Labels }

/-- GlobalDependencies represents the list of global dependencies, by service and by ID;
both maps are allocated, as `NewGlobalDependencies` makes them. -/
structure GlobalDependencies where
  DependenciesByService : GoMap (List Dependency)
  DependenciesByID : GoMap Dependency

/-- NewGlobalDependencies creates and initializes a new empty list of global
dependencies. -/
def NewGlobalDependencies : GlobalDependencies :=
  { DependenciesByService := GoMap.empty, DependenciesByID := GoMap.empty }

/-- AddDependency appends a single dependency to an existing object; `Except.error`
carries the message of a panic. -/
def GlobalDependencies.AddDependency (src : GlobalDependencies) (dependency : Dependency) :
    Except String GlobalDependencies :=
  match dependency.GetID with
  | .error p => .error p
  | .ok id =>
    if id.utf8ByteSize ≤ 0 then .error "Empty dependency ID"
    else
      .ok { DependenciesByService :=
              src.DependenciesByService.set dependency.Service
                ((src.DependenciesByService.get dependency.Service).getD [] ++ [dependency]),
            DependenciesByID := src.DependenciesByID.set id dependency }

/-- A document naming a user and a service, silent on `Enabled`. -/
def aliceDocument : DependencyDocument :=
  { Enabled := none, UserID := some "alice", Service := some "kafka", Labels := none }

/-- A document that disables the dependency. -/
def disabledDocument : DependencyDocument :=
  { Enabled := some false, UserID := some "alice", Service := some "kafka", Labels := none }

/-- A dependency of user `alice` on service `kafka`, named `dep1`. -/
def aliceDependency : Dependency :=
  { SlingaObject := some { Kind := "dependency", Namespace := "main", Name := "dep1" },
    Enabled := true, UserID := "alice", Service := "kafka", Labels := [],
    Resolved := false, ServiceKey := "" }

/-- The call of `AddDependency` statement by statement, on the two maps of the receiver:
the message of the panic with which the call ends, if it does, and the maps as the call
leaves them. (`AddDependency` gives the maps of a call that returns.) -/
def GlobalDependencies.AddDependencyInPlace (src : GlobalDependencies)
    (dependency : Dependency) : Option String × GlobalDependencies :=
  match dependency.GetID with
  | .error p => (some p, src)
  | .ok id =>
    if id.utf8ByteSize ≤ 0 then (some "Empty dependency ID", src)
    else
      let src1 : GlobalDependencies :=
        { DependenciesByService :=
            src.DependenciesByService.set dependency.Service
              ((src.DependenciesByService.get dependency.Service).getD [] ++ [dependency]),
          DependenciesByID := src.DependenciesByID }
      match dependency.GetID with
      | .error p => (some p, src1)
      | .ok id1 =>
        (none,
          { DependenciesByService := src1.DependenciesByService,
            DependenciesByID := src1.DependenciesByID.set id1 dependency })

/-- A dependency whose object has the empty name. -/
def namelessDependency : Dependency :=
  { SlingaObject := some { Kind := "dependency", Namespace := "main", Name := "" },
    Enabled := true, UserID := "alice", Service := "kafka", Labels := [],
    Resolved := false, ServiceKey := "" }

/-! ## `cmd/common/config.go` -/

/-- What `os.Stat` tells about a path: a file, a directory, an error saying that the
path does not exist, or another error. -/
inductive StatResult where
  | file
  | dir
  | notExist (err : String)
  | failed (err : String)
deriving DecidableEq, Repr

/-- The Viper instance as far as `ReadConfig` uses it: the value of the `config` flag
and what `AddConfigPath`, `SetConfigName` and `SetConfigFile` store. -/
structure Viper where
  config : String
  configPaths : List String
  configName : String
  configFile : String
deriving DecidableEq, Repr

/-- What `ReadConfig` calls outside the package, for a config object of type `Cfg`: the
list `viper.SupportedExts`, `os.Stat`, `filepath.Abs`, `path.Join`,
`viper.ReadInConfig`, `viper.Unmarshal`, `cfg.IsDebug` and the validator. -/
structure ConfigEnv (Cfg : Type) where
  SupportedExts : List String
  stat : String → StatResult
  abs : String → Except String String
  join : String → String → String
  readInConfig : Viper → Option String
  unmarshal : Viper → Cfg → Except String Cfg
  isDebug : Cfg → Bool
  validate : Cfg → Option String

/-- The calls `ReadConfig` makes once the config location is settled. -/
inductive ConfigCall where
  | readInConfig
  | unmarshal
  | setLevelDebug
  | validate
  | logConfig
deriving DecidableEq, Repr

/-- Result of `ReadConfig`: the returned error, the Viper instance and the config object
afterwards, and the calls made. -/
structure ReadConfigResult (Cfg : Type) where
  err : Option String
  viper : Viper
  cfg : Cfg
  calls : List ConfigCall

/-- Use the specified path: a directory is added as config path, a file is set as config
file. -/
def processConfigAbsPath {Cfg : Type} (env : ConfigEnv Cfg) (viper : Viper) (path : String) :
    Option String × Viper :=
  match env.stat path with
  | .dir => (none, { viper with configPaths := viper.configPaths ++ [path] })
  | .file => (none, { viper with configFile := path })
  | .notExist err =>
    (some ("specified config path " ++ path ++ " doesn't exist: " ++ err), viper)
  | .failed err =>
    (some ("error while processing specified config path " ++ path ++ ": " ++ err), viper)

/-- The loop of `isConfigExists` over the supported config types still to check. -/
def isConfigExistsFrom {Cfg : Type} (env : ConfigEnv Cfg) (configDir : String) :
    List String → Bool
  | [] => false
  | supportedType :: rest =>
    match env.stat (env.join configDir ("config." ++ supportedType)) with
    | .file => true
    | .dir => true
    | _ => isConfigExistsFrom env configDir rest

/-- Check all supported config types: is there a file `config.<type>` in the directory. -/
def isConfigExists {Cfg : Type} (env : ConfigEnv Cfg) (configDir : String) : Bool :=
  isConfigExistsFrom env configDir env.SupportedExts

/-- The first part of `ReadConfig`, which settles where the config is read from. -/
def locateConfig {Cfg : Type} (env : ConfigEnv Cfg) (viper : Viper)
    (defaultConfigDir : String) : Option String × Viper :=
  if viper.config ≠ "" then
    match env.abs viper.config with
    | .error err =>
      (some ("error getting abs path for " ++ viper.config ++ ": " ++ err), viper)
    | .ok configAbsPath => processConfigAbsPath env viper configAbsPath
  else if !isConfigExists env defaultConfigDir then
    (some ("can't find config file in default config dir: " ++ defaultConfigDir), viper)
  else
    (none, { viper with
      configPaths := viper.configPaths ++ [defaultConfigDir], configName := "config" })

/-- ReadConfig reads configuration from CLI flags, default or specified file path into
the provided config object. -/
def ReadConfig {Cfg : Type} (env : ConfigEnv Cfg) (viper : Viper) (cfg : Cfg)
    (defaultConfigDir : String) : ReadConfigResult Cfg :=
  match locateConfig env viper defaultConfigDir with
  | (some err, viper1) => { err := some err, viper := viper1, cfg := cfg, calls := [] }
  | (none, viper1) =>
    match env.readInConfig viper1 with
    | some err =>
      { err := some ("can't read config: " ++ err), viper := viper1, cfg := cfg,
        calls := [ConfigCall.readInConfig] }
    | none =>
      match env.unmarshal viper1 cfg with
      | .error err =>
        { err := some ("unable to unmarshal config: " ++ err), viper := viper1, cfg := cfg,
          calls := [ConfigCall.readInConfig, ConfigCall.unmarshal] }
      | .ok cfg1 =>
        let calls1 := [ConfigCall.readInConfig, ConfigCall.unmarshal] ++
          (if env.isDebug cfg1 then [ConfigCall.setLevelDebug] else []) ++ [ConfigCall.validate]
        match env.validate cfg1 with
        | some errValidation =>
          { err := some ("error while validating config: " ++ errValidation),
            viper := viper1, cfg := cfg1, calls := calls1 }
        | none =>
          { err := none, viper := viper1, cfg := cfg1,
            calls := calls1 ++ [ConfigCall.logConfig] }

/-- An environment in which no path exists; the supported types are Viper's. -/
def emptyDirEnv : ConfigEnv Unit where
  SupportedExts := ["json", "toml", "yaml", "yml", "properties", "props", "prop", "hcl"]
  stat := fun _ => StatResult.notExist "no such file or directory"
  abs := fun p => .ok p
  join := fun dir file => dir ++ "/" ++ file
  readInConfig := fun _ => none
  unmarshal := fun _ cfg => .ok cfg
  isDebug := fun _ => false
  validate := fun _ => none

/-- A Viper instance for which no `--config` was given. -/
def noConfigFlag : Viper :=
  { config := "", configPaths := [], configName := "", configFile := "" }

/-! ## `pkg/plugin/k8sraw/plugin.go` -/

/-- A value held by a nested parameter map (`map[string]interface{}`): a string, a nested
map, or a value of another type. -/
inductive ParamValue where
  | str (s : String)
  | nested (entries : List (String × ParamValue))
  | other (rendering : String)

/-- The parameters of a component instance (`util.NestedParameterMap`). -/
abbrev NestedParameterMap := GoMap ParamValue

/-- The type assertion `params["manifest"].(string)`: the string, when the key is present
and holds a string (`ok`), otherwise nothing. -/
def manifestParam (params : NestedParameterMap) : Option String :=
  match params.get "manifest" with
  | some (ParamValue.str s) => some s
  | _ => none

/-- One object described by a manifest, as `BuildUnstructured` returns it: its name and
the version and kind of its resource mapping. -/
structure Info where
  Name : String
  Version : String
  Kind : String
deriving DecidableEq, Repr

/-- A port of a service. -/
structure ServicePort where
  Name : String
  Port : Int
  NodePort : Int
  Protocol : String
deriving DecidableEq, Repr

/-- An object retrieved from the cluster. Of a service and a deployment the fields shown
in the tables are kept; `SpecReplicas` is `none` for a nil `Spec.Replicas`. -/
inductive KubeObject where
  | service (Namespace Name SpecType : String) (Ports : List ServicePort) (Created : String)
  | deployment (Namespace Name : String) (SpecReplicas : Option Int)
      (Replicas UpdatedReplicas AvailableReplicas Generation : Int) (Created : String)
  | configMap (Namespace Name : String)
  | secret (Namespace Name : String)
  | persistentVolumeClaim (Namespace Name : String)
  | statefulSet (Namespace Name : String)
  | job (Namespace Name : String)
deriving DecidableEq, Repr

/-- The calls a plugin operation makes on the cluster and its manifest store. -/
inductive KubeCall where
  | init
  | newClient
  | loadManifest (deployName : String)
  | buildUnstructured (manifest : String)
  | get (kind name : String)
  | create (manifest : String)
  | update (currentManifest targetManifest : String)
  | delete (manifest : String)
  | storeManifest (deployName manifest : String)
  | deleteManifest (deployName : String)
deriving DecidableEq, Repr

/-- The calls that change the cluster or the manifest store. -/
def KubeCall.mutating : KubeCall → Bool
  | .create _ => true
  | .update _ _ => true
  | .delete _ => true
  | .storeManifest _ _ => true
  | .deleteManifest _ => true
  | _ => false

/-- Plugin represents the Kubernetes Raw code plugin. Its fields here are the outcomes of
what the plugin calls outside this file: `p.init()`, `p.kube.NewClient()`, the manifest
store (`loadManifest`, `storeManifest`, `deleteManifest`), the client made by
`prepareClient` (`Create`, `Update`, `Delete`, `BuildUnstructured`, all in
`p.kube.Namespace`) and the typed `Get` calls of the cluster client. An `Option String`
is the returned error. -/
structure Plugin where
  init : Option String
  newClient : Option String
  loadManifest : String → Except String String
  storeManifest : String → String → Option String
  deleteManifest : String → Option String
  clientCreate : String → Option String
  clientUpdate : String → String → Option String
  clientDelete : String → Option String
  buildUnstructured : String → Except String (List Info)
  get : String → String → Except String KubeObject

/-- What an operation returns and the calls it made, in order. -/
structure PluginResult where
  err : Option String
  calls : List KubeCall
deriving DecidableEq, Repr

/-- Create implements creation of a new component instance in the cloud by deploying raw
k8s objects. -/
def Plugin.Create (p : Plugin) (deployName : String) (params : NestedParameterMap) :
    PluginResult :=
  match p.init with
  | some err => { err := some err, calls := [KubeCall.init] }
  | none =>
    match p.newClient with
    | some err => { err := some err, calls := [KubeCall.init, KubeCall.newClient] }
    | none =>
      match manifestParam params with
      | none =>
        { err := some "manifest is a mandatory parameter",
          calls := [KubeCall.init, KubeCall.newClient] }
      | some targetManifest =>
        match p.clientCreate targetManifest with
        | some err =>
          { err := some err,
            calls := [KubeCall.init, KubeCall.newClient, KubeCall.create targetManifest] }
        | none =>
          { err := p.storeManifest deployName targetManifest,
            calls := [KubeCall.init, KubeCall.newClient, KubeCall.create targetManifest,
              KubeCall.storeManifest deployName targetManifest] }

/-- Update implements update of an existing component instance in the cloud by updating
raw k8s objects. -/
def Plugin.Update (p : Plugin) (deployName : String) (params : NestedParameterMap) :
    PluginResult :=
  match p.init with
  | some err => { err := some err, calls := [KubeCall.init] }
  | none =>
    match p.newClient with
    | some err => { err := some err, calls := [KubeCall.init, KubeCall.newClient] }
    | none =>
      match p.loadManifest deployName with
      | .error err =>
        { err := some err,
          calls := [KubeCall.init, KubeCall.newClient, KubeCall.loadManifest deployName] }
      | .ok currentManifest =>
        match manifestParam params with
        | none =>
          { err := some "manifest is a mandatory parameter",
            calls := [KubeCall.init, KubeCall.newClient, KubeCall.loadManifest deployName] }
        | some targetManifest =>
          match p.clientUpdate currentManifest targetManifest with
          | some err =>
            { err := some err,
              calls := [KubeCall.init, KubeCall.newClient, KubeCall.loadManifest deployName,
                KubeCall.update currentManifest targetManifest] }
          | none =>
            { err := p.storeManifest deployName targetManifest,
              calls := [KubeCall.init, KubeCall.newClient, KubeCall.loadManifest deployName,
                KubeCall.update currentManifest targetManifest,
                KubeCall.storeManifest deployName targetManifest] }

/-- Destroy implements destruction of an existing component instance in the cloud by
deleting raw k8s objects. -/
def Plugin.Destroy (p : Plugin) (deployName : String) (params : NestedParameterMap) :
    PluginResult :=
  match p.init with
  | some err => { err := some err, calls := [KubeCall.init] }
  | none =>
    match p.newClient with
    | some err => { err := some err, calls := [KubeCall.init, KubeCall.newClient] }
    | none =>
      match manifestParam params with
      | none =>
        { err := some "manifest is a mandatory parameter",
          calls := [KubeCall.init, KubeCall.newClient] }
      | some deleteManifest =>
        match p.clientDelete deleteManifest with
        | some err =>
          { err := some err,
            calls := [KubeCall.init, KubeCall.newClient, KubeCall.delete deleteManifest] }
        | none =>
          { err := p.deleteManifest deployName,
            calls := [KubeCall.init, KubeCall.newClient, KubeCall.delete deleteManifest,
              KubeCall.deleteManifest deployName] }

/-- A plugin whose every call succeeds; the manifest describes nothing. -/
def healthyPlugin : Plugin where
  init := none
  newClient := none
  loadManifest := fun _ => .ok "kind: Service"
  storeManifest := fun _ _ => none
  deleteManifest := fun _ => none
  clientCreate := fun _ => none
  clientUpdate := fun _ _ => none
  clientDelete := fun _ => none
  buildUnstructured := fun _ => .ok []
  get := fun _ name => .ok (KubeObject.configMap "default" name)

/-- Parameters whose `manifest` is not a string. -/
def nonStringManifest : NestedParameterMap :=
  [("manifest", ParamValue.nested [("kind", ParamValue.str "Service")])]

/-- ResourceTypeHandler is an interface for handlers that return the list of headers and
the columns that represent an object; `Columns` fails (it panics) on an object of
another type than the handler's. -/
structure ResourceTypeHandler where
  Headers : List String
  Columns : KubeObject → Except String (List String)

/-- Headers of the table of services. -/
def serviceResourceHeaders : List String :=
  ["Namespace", "Name", "Type", "Port(s)", "Created"]

/-- Rendering of one port of a service. -/
def servicePortPart (port : ServicePort) : String :=
  (if port.NodePort > 0 then
      toString port.Port ++ ":" ++ toString port.NodePort ++ "/" ++ port.Protocol
    else toString port.Port ++ "/" ++ port.Protocol) ++
    (if port.Name.utf8ByteSize > 0 then "(" ++ port.Name ++ ")" else "")

/-- The handler for services. -/
def serviceResourceTypeHandler : ResourceTypeHandler where
  Headers := serviceResourceHeaders
  Columns := fun obj =>
    match obj with
    | .service ns name specType ports created =>
      .ok [ns, name, specType, String.intercalate "," (ports.map servicePortPart), created]
    | _ => .error "interface conversion: interface {} is not *v1.Service"

/-- Headers of the table of deployments. -/
def deploymentResourceHeaders : List String :=
  ["Namespace", "Name", "Desired", "Current", "Up-to-date", "Available", "Generation",
    "Created"]

/-- The handler for deployments. -/
def deploymentResourceTypeHandler : ResourceTypeHandler where
  Headers := deploymentResourceHeaders
  Columns := fun obj =>
    match obj with
    | .deployment ns name (some desired) current updated available gen created =>
      .ok [ns, name, toString desired, toString current, toString updated,
        toString available, toString gen, created]
    | .deployment _ _ none _ _ _ _ _ =>
      .error "runtime error: invalid memory address or nil pointer dereference"
    | _ => .error "interface conversion: interface {} is not *v1beta1.Deployment"

/-- A table of resources of one type (`plugin.ResourceTable`). -/
structure ResourceTable where
  Headers : List String
  Items : List (List String)
deriving DecidableEq, Repr

/-- The tables by resource type (`plugin.Resources`). -/
abbrev Resources := GoMap ResourceTable

/-- The handlers `Resources` registers. -/
def resourceHandlers : GoMap ResourceTypeHandler :=
  (GoMap.empty.set "k8s/v1/Service" serviceResourceTypeHandler).set
    "k8s/v1/Deployment" deploymentResourceTypeHandler

/-- The kinds for which the loop of `Resources` has a branch that gets the object and
appends its columns. -/
def fetchedKinds : List String :=
  ["Service", "ConfigMap", "Secret", "PersistentVolumeClaim", "Deployment", "StatefulSet",
    "Job"]

/-- The loop of `Resources` over the objects of the manifest. An object whose resource
type has no handler is passed over; otherwise the table of the type is made if it does
not exist, and for the kinds with a branch the object is retrieved and its columns are
appended. An `Except.error` is the error returned (or the panic of `Columns`). -/
def Plugin.resourcesLoop (p : Plugin) (handlers : GoMap ResourceTypeHandler) :
    List Info → Resources → Except String Resources
  | [], resources => .ok resources
  | info :: rest, resources =>
    let resourceType := "k8s/" ++ info.Version ++ "/" ++ info.Kind
    match handlers.get resourceType with
    | none => p.resourcesLoop handlers rest resources
    | some handler =>
      let table : ResourceTable :=
        match resources.get resourceType with
        | some table => table
        | none => { Headers := handler.Headers, Items := [] }
      if info.Kind ∈ fetchedKinds then
        match p.get info.Kind info.Name with
        | .error getErr => .error getErr
        | .ok obj =>
          match handler.Columns obj with
          | .error panicValue => .error panicValue
          | .ok columns =>
            p.resourcesLoop handlers rest
              (resources.set resourceType { table with Items := table.Items ++ [columns] })
      else p.resourcesLoop handlers rest (resources.set resourceType table)

/-- Resources returns list of all resources (like services, config maps, etc.) into the
cluster by specified component instance. -/
def Plugin.Resources (p : Plugin) (params : NestedParameterMap) : Except String Resources :=
  match p.init with
  | some err => .error err
  | none =>
    match p.newClient with
    | some err => .error err
    | none =>
      match manifestParam params with
      | none => .error "manifest is a mandatory parameter"
      | some targetManifest =>
        match p.buildUnstructured targetManifest with
        | .error err => .error err
        | .ok infos => p.resourcesLoop resourceHandlers infos GoMap.empty

/-- A plugin whose every call succeeds; its manifest describes a service, a config map,
a secret, a persistent volume claim, a stateful set and a job, and every object is
retrieved. -/
def manifestPlugin : Plugin where
  init := none
  newClient := none
  loadManifest := fun _ => .ok ""
  storeManifest := fun _ _ => none
  deleteManifest := fun _ => none
  clientCreate := fun _ => none
  clientUpdate := fun _ _ => none
  clientDelete := fun _ => none
  buildUnstructured := fun _ =>
    .ok [⟨"web", "v1", "Service"⟩, ⟨"settings", "v1", "ConfigMap"⟩,
      ⟨"password", "v1", "Secret"⟩, ⟨"data", "v1", "PersistentVolumeClaim"⟩,
      ⟨"db", "v1beta1", "StatefulSet"⟩, ⟨"migrate", "v1", "Job"⟩]
  get := fun kind name =>
    if kind = "Service" then
      .ok (KubeObject.service "default" name "ClusterIP" [⟨"http", 80, 0, "TCP"⟩] "2018-01-01")
    else if kind = "ConfigMap" then .ok (KubeObject.configMap "default" name)
    else if kind = "Secret" then .ok (KubeObject.secret "default" name)
    else if kind = "PersistentVolumeClaim" then
      .ok (KubeObject.persistentVolumeClaim "default" name)
    else if kind = "StatefulSet" then .ok (KubeObject.statefulSet "default" name)
    else .ok (KubeObject.job "default" name)

/-- Parameters with a manifest. -/
def manifestParams : NestedParameterMap :=
  [("manifest", ParamValue.str "kind: Service")]

/-! ### Services that were not reassigned -/

/-- The operation is a call of a getter. -/
def ServiceOp.isGetter : ServiceOp → Bool
  | .assign _ _ _ => false
  | .getComponentsMap => true
  | .getComponentsSortedTopologically => true

/-- No exported field of the service has been assigned since its getters were first
called: the service results from the newly constructed service with the same exported
fields by calls of its getters only (none, or any number of them). -/
def Service.Unmodified (s : Service) : Prop :=
  ∃ ops : List ServiceOp, (∀ op ∈ ops, op.isGetter = true) ∧
    (Service.new s.Name s.Labels s.Components).run ops = some s

/-- The lazily evaluated fields fit the exported ones: the component map, if evaluated,
is the map of the components, and the stored ordering, if evaluated, is what the first
sort of a service with the same name and components returns. -/
structure Service.Consistent (s : Service) : Prop where
  map : s.GetComponentsMap.1 = buildComponentsMap s.Components
  unsorted : s.componentsOrderedOnce = false →
    s.componentsOrdered = [] ∧ s.componentsOrderedErr = none
  sorted : s.componentsOrderedOnce = true →
    ∃ s0 s1 : Service, s0.Unsorted ∧ s0.Name = s.Name ∧ s0.Components = s.Components ∧
      s0.GetComponentsSortedTopologically =
        some ((s.componentsOrdered, s.componentsOrderedErr), s1)

/-- The service named `service` after `GetComponentsMap` was called on it while its
components were `initial` and `Components` was then assigned `later`: its component map
is the one of `initial`. -/
def staleMapService (initial later : List ServiceComponent) : Service :=
  { (Service.new "service" [] initial).GetComponentsMap.2 with Components := later }

/-! ### The actions a plan hands out -/

/-- The actions the walk of a plan hands to the callback `fn`, in order, each with the
data at which the callback receives it. -/
def Plan.handed {Ctx S : Type} (fn : Action Ctx → S → Option String × S) :
    Plan Ctx → S → List (Action Ctx × S)
  | .finished _, _ => []
  | .hand act next, s => (act, s) :: (next (fn act s).1).handed fn (fn act s).2

/-- The actions the plan hands to the callback of `EngineApply.Apply`, in order, each
with the action context at which it is handed out. -/
def EngineApply.handed {Ctx : Type} (apply : EngineApply Ctx) : List (Action Ctx × Ctx) :=
  (apply.actionPlan.handed (WrapSequential applyAction)
    { context := apply.context,
      events := [Event.setTotal (apply.actionPlan.Apply Noop ()).1.Success],
      foundErrors := false }).map (fun p => (p.1, p.2.context))

/-- For each action handed out, a call of `Advance` followed by the execution of the
action at its context. -/
def progressEvents {Ctx : Type} : List (Action Ctx × Ctx) → List Event
  | [] => []
  | (act, ctx) :: rest =>
    Event.advance :: Event.executed act.name (act.Apply ctx).1 :: progressEvents rest

/-- The event is a call of `Advance` or the execution of an action. -/
def Event.isProgress (e : Event) : Bool :=
  e.isAdvance || e.isExecuted

/-- A service with the given components after a first call of
`GetComponentsSortedTopologically` and a call of `GetComponentsMap`. -/
def sortedService (components : List ServiceComponent) : Service :=
  ((Service.new "service" [] components).run
    [ServiceOp.getComponentsSortedTopologically, ServiceOp.getComponentsMap]).getD
      (Service.new "service" [] components)

/-! # Theorems -/

/-! ## Lemmas on maps -/

namespace GoMap

theorem get_erase {β : Type} (m : GoMap β) (k k' : String) :
    (m.erase k).get k' = if k' = k then none else m.get k' := by
  induction m with
  | nil => simp [get, erase]
  | cons p m ih =>
    obtain ⟨a, b⟩ := p
    by_cases h : a = k
    · subst h
      by_cases h2 : a = k'
      · subst h2; simp [erase, get, ih]
      · have h3 : ¬ k' = a := fun e => h2 e.symm
        simp [erase, get, ih, h2, h3]
    · by_cases h2 : a = k'
      · subst h2; simp [erase, get, h]
      · simp [erase, get, ih, h, h2]

theorem get_set {β : Type} (m : GoMap β) (k k' : String) (v : β) :
    (m.set k v).get k' = if k' = k then some v else m.get k' := by
  unfold set
  by_cases h : k' = k
  · subst h; simp [get]
  · have h2 : ¬ k = k' := fun e => h e.symm
    simp [get, get_erase, h, h2]

theorem get_set_self {β : Type} (m : GoMap β) (k : String) (v : β) :
    (m.set k v).get k = some v := by
  simp [get_set]

theorem get_set_of_ne {β : Type} {m : GoMap β} {k k' : String} {v : β} (h : k' ≠ k) :
    (m.set k v).get k' = m.get k' := by
  simp [get_set, h]

theorem get_empty {β : Type} (k : String) : (empty : GoMap β).get k = none := rfl

theorem mem_of_get {β : Type} {m : GoMap β} {k : String} {v : β} (h : m.get k = some v) :
    (k, v) ∈ m := by
  induction m with
  | nil => simp [get] at h
  | cons p m ih =>
    obtain ⟨a, b⟩ := p
    by_cases e : a = k
    · subst e; simp [get] at h; subst h; simp
    · simp [get, e] at h; exact List.mem_cons_of_mem _ (ih h)

end GoMap

/-! ## Colours only grow -/

theorem ColorsGrow.same (c : GoMap Nat) : ColorsGrow c c :=
  ⟨fun _ _ => rfl, fun _ h => Or.inl h⟩

theorem ColorsGrow.trans {a b c : GoMap Nat} (h1 : ColorsGrow a b) (h2 : ColorsGrow b c) :
    ColorsGrow a c := by
  constructor
  · intro n hn
    have e := h1.keep n hn
    rw [← e]
    exact h2.keep n (by rw [e]; exact hn)
  · intro n hn
    rcases h1.fresh n hn with e | e
    · exact h2.fresh n e
    · right
      rw [← e]
      exact h2.keep n (by rw [e]; simp)

theorem ColorsGrow.gray {c c' : GoMap Nat} (h : ColorsGrow c c') (n : String) :
    c'.get n = some 1 ↔ c.get n = some 1 := by
  constructor
  · intro e
    by_cases hn : c.get n = none
    · rcases h.fresh n hn with e2 | e2 <;> rw [e2] at e <;> simp at e
    · rw [← h.keep n hn]; exact e
  · intro e
    rw [h.keep n (by rw [e]; simp)]; exact e

theorem coreDependencies_colors {M : GoMap ServiceComponent} {nm : String}
    {visit : ServiceComponent → Core → Option (Option String × Core)}
    (hv : ∀ v σ σ', σ.colors.get v.Name = none → visit v σ = some (none, σ') →
      ColorsGrow σ.colors σ'.colors) :
    ∀ deps σ σ', coreDependencies M nm visit deps σ = some (none, σ') →
      ColorsGrow σ.colors σ'.colors := by
  intro deps
  induction deps with
  | nil =>
    intro σ σ' h
    simp [coreDependencies] at h
    subst h
    exact ColorsGrow.same _
  | cons d rest ih =>
    intro σ σ' h
    simp only [coreDependencies] at h
    split at h
    · simp at h
    · rename_i v hv1
      split at h
      · rename_i hc
        split at h
        · simp at h
        · simp at h
        · rename_i σ2 hvis
          exact (hv v σ σ2 hc hvis).trans (ih σ2 σ' h)
      · split at h
        · simp at h
        · exact ih σ σ' h

theorem coreSort_colors (M : GoMap ServiceComponent) (nm : String) :
    ∀ fuel u σ σ', σ.colors.get u.Name = none → coreSort M nm fuel u σ = some (none, σ') →
      ColorsGrow σ.colors σ'.colors := by
  intro fuel
  induction fuel with
  | zero => intro u σ σ' _ h; simp [coreSort] at h
  | succ fuel ih =>
    intro u σ σ' hu h
    simp only [coreSort] at h
    split at h
    · simp at h
    · simp at h
    · rename_i σ2 hloop
      have hg := coreDependencies_colors ih _ _ _ hloop
      simp at h
      subst h
      constructor
      · intro n hn
        have hne : n ≠ u.Name := by
          intro e; subst e; exact hn hu
        have h1 : (σ.colors.set u.Name 1).get n = σ.colors.get n := GoMap.get_set_of_ne hne
        simp only [GoMap.get_set_of_ne hne]
        rw [← h1]
        exact hg.keep n (by rw [h1]; exact hn)
      · intro n hn
        by_cases hne : n = u.Name
        · subst hne; right; simp [GoMap.get_set]
        · simp only [GoMap.get_set_of_ne hne]
          exact hg.fresh n (by simp [GoMap.get_set_of_ne hne, hn])

/-! ## The budget of nested calls is never exhausted -/

theorem uncoloured_le_length (M : GoMap ServiceComponent) (c : GoMap Nat) :
    uncoloured M c ≤ M.length := List.countP_le_length _

theorem uncoloured_mono {M : GoMap ServiceComponent} {c c' : GoMap Nat}
    (h : ∀ n, c.get n ≠ none → c'.get n ≠ none) : uncoloured M c' ≤ uncoloured M c := by
  unfold uncoloured
  apply List.countP_mono_left
  intro p _ hp
  by_contra hc
  have h1 : c.get p.2.Name ≠ none := by
    intro e; rw [e] at hc; simp at hc
  have h2 := h _ h1
  cases hq : c'.get p.2.Name with
  | none => exact h2 hq
  | some k => rw [hq] at hp; simp at hp

theorem uncoloured_lt {M : GoMap ServiceComponent} {c c' : GoMap Nat}
    (h : ∀ n, c.get n ≠ none → c'.get n ≠ none) {k : String} {v : ServiceComponent}
    (hm : (k, v) ∈ M) (h1 : c.get v.Name = none) (h2 : c'.get v.Name ≠ none) :
    uncoloured M c' < uncoloured M c := by
  induction M with
  | nil => simp at hm
  | cons p M ih =>
    have hle : uncoloured M c' ≤ uncoloured M c := uncoloured_mono h
    unfold uncoloured at *
    rw [List.countP_cons, List.countP_cons]
    rcases List.mem_cons.mp hm with e | e
    · subst e
      have a1 : (c.get v.Name).isNone = true := by rw [h1]; rfl
      have a2 : (c'.get v.Name).isNone = false := by
        cases hq : c'.get v.Name with
        | none => exact absurd hq h2
        | some k => rfl
      simp only [a1, a2]
      simp
      omega
    · have := ih e
      by_cases hp : (c'.get p.2.Name).isNone = true
      · have hp2 : (c.get p.2.Name).isNone = true := by
          by_contra hc
          have h3 : c.get p.2.Name ≠ none := by
            intro e2; rw [e2] at hc; simp at hc
          have h4 := h _ h3
          cases hq : c'.get p.2.Name with
          | none => exact h4 hq
          | some k => rw [hq] at hp; simp at hp
        simp only [hp, hp2]
        simp
        omega
      · simp only [hp]
        simp
        omega

theorem ColorsGrow.dom {c c' : GoMap Nat} (h : ColorsGrow c c') :
    ∀ n, c.get n ≠ none → c'.get n ≠ none := by
  intro n hn
  rw [h.keep n hn]; exact hn

theorem coreDependencies_total {M : GoMap ServiceComponent} {nm : String}
    {visit : ServiceComponent → Core → Option (Option String × Core)} {N : Nat}
    (hg : ∀ v σ σ', σ.colors.get v.Name = none → visit v σ = some (none, σ') →
      ColorsGrow σ.colors σ'.colors)
    (hv : ∀ k v σ, (k, v) ∈ M → σ.colors.get v.Name = none → uncoloured M σ.colors ≤ N →
      visit v σ ≠ none) :
    ∀ deps σ, uncoloured M σ.colors ≤ N → coreDependencies M nm visit deps σ ≠ none := by
  intro deps
  induction deps with
  | nil => intro σ _; simp [coreDependencies]
  | cons d rest ih =>
    intro σ hσ h
    simp only [coreDependencies] at h
    split at h
    · simp at h
    · rename_i v hv1
      split at h
      · rename_i hc
        split at h
        · rename_i hvis
          exact hv d v σ (GoMap.mem_of_get hv1) hc hσ hvis
        · simp at h
        · rename_i σ2 hvis
          have hg2 := hg v σ σ2 hc hvis
          exact ih σ2 (le_trans (uncoloured_mono hg2.dom) hσ) h
      · split at h
        · simp at h
        · exact ih σ hσ h

theorem coreSort_total (M : GoMap ServiceComponent) (nm : String) :
    ∀ fuel u σ, uncoloured M (σ.colors.set u.Name 1) < fuel → coreSort M nm fuel u σ ≠ none := by
  intro fuel
  induction fuel with
  | zero => intro u σ h; omega
  | succ fuel ih =>
    intro u σ hσ h
    simp only [coreSort] at h
    split at h
    · rename_i hloop
      refine coreDependencies_total (N := fuel) (coreSort_colors M nm fuel) ?_ _ _ ?_ hloop
      · intro k v σ1 hm hc hN
        apply ih
        have : uncoloured M (σ1.colors.set v.Name 1) < uncoloured M σ1.colors := by
          apply uncoloured_lt _ hm hc
          · simp [GoMap.get_set]
          · intro n hn
            by_cases e : n = v.Name
            · simp [GoMap.get_set, e]
            · rw [GoMap.get_set_of_ne e]; exact hn
        omega
      · simp only
        omega
    · simp at h
    · simp at h

/-! ## The invariant of the traversal -/

theorem TopologicalOrder.nil : TopologicalOrder [] := by
  intro i x h; simp at h

theorem TopologicalOrder.snoc {o : List ServiceComponent} {u : ServiceComponent}
    (h : TopologicalOrder o) (hu : ∀ d ∈ u.Dependencies, ∃ y ∈ o, y.Name = d) :
    TopologicalOrder (o ++ [u]) := by
  intro i x hx d hd
  by_cases hi : i < o.length
  · rw [List.getElem?_append_left hi] at hx
    obtain ⟨j, y, hj, hy, hn⟩ := h i x hx d hd
    refine ⟨j, y, hj, ?_, hn⟩
    rw [List.getElem?_append_left (by omega)]
    exact hy
  · have hi2 : o.length ≤ i := by omega
    rw [List.getElem?_append_right hi2] at hx
    have hxu : x = u := by
      cases hk : i - o.length with
      | zero => rw [hk] at hx; simp at hx; exact hx.symm
      | succ k => rw [hk] at hx; simp at hx
    subst hxu
    obtain ⟨y, hy, hn⟩ := hu d hd
    obtain ⟨j, hj, hjy⟩ := List.mem_iff_getElem.mp hy
    refine ⟨j, y, by omega, ?_, hn⟩
    rw [List.getElem?_append_left hj, List.getElem?_eq_getElem hj, hjy]

theorem coreDependencies_inv {M : GoMap ServiceComponent} {nm : String}
    {U : ServiceComponent → Prop}
    {visit : ServiceComponent → Core → Option (Option String × Core)}
    (hM : WellKeyed M) (hU : ∀ k v, M.get k = some v → U v)
    (hv : ∀ v σ σ', U v → σ.colors.get v.Name = none → Inv U σ → visit v σ = some (none, σ') →
      Inv U σ' ∧ σ'.colors.get v.Name = some 2 ∧ ∀ x ∈ σ.ordered, x ∈ σ'.ordered) :
    ∀ deps σ σ', Inv U σ → coreDependencies M nm visit deps σ = some (none, σ') →
      Inv U σ' ∧ (∀ x ∈ σ.ordered, x ∈ σ'.ordered) ∧
        ∀ d ∈ deps, ∃ y ∈ σ'.ordered, y.Name = d := by
  intro deps
  induction deps with
  | nil =>
    intro σ σ' hI h
    simp [coreDependencies] at h
    subst h
    exact ⟨hI, fun _ hx => hx, by simp⟩
  | cons d rest ih =>
    intro σ σ' hI h
    simp only [coreDependencies] at h
    split at h
    · simp at h
    · rename_i v hv1
      have hname : v.Name = d := hM d v hv1
      split at h
      · rename_i hc
        split at h
        · simp at h
        · simp at h
        · rename_i σ2 hvis
          obtain ⟨hI2, hc2, hsub2⟩ := hv v σ σ2 (hU d v hv1) hc hI hvis
          obtain ⟨hI3, hsub3, hdeps⟩ := ih σ2 σ' hI2 h
          refine ⟨hI3, fun x hx => hsub3 x (hsub2 x hx), ?_⟩
          intro d' hd'
          rcases List.mem_cons.mp hd' with e | e
          · subst e
            obtain ⟨y, hy, hn⟩ := hI2.done v.Name 2 hc2 (by decide)
            exact ⟨y, hsub3 y hy, hn.trans hname⟩
          · exact hdeps d' e
      · rename_i vColor hc
        split at h
        · simp at h
        · rename_i hne
          obtain ⟨hI3, hsub3, hdeps⟩ := ih σ σ' hI h
          refine ⟨hI3, hsub3, ?_⟩
          intro d' hd'
          rcases List.mem_cons.mp hd' with e | e
          · subst e
            obtain ⟨y, hy, hn⟩ := hI.done v.Name vColor hc hne
            exact ⟨y, hsub3 y hy, hn.trans hname⟩
          · exact hdeps d' e

theorem coreSort_inv {M : GoMap ServiceComponent} {nm : String} {U : ServiceComponent → Prop}
    (hM : WellKeyed M) (hU : ∀ k v, M.get k = some v → U v) :
    ∀ fuel u σ σ', U u → σ.colors.get u.Name = none → Inv U σ →
      coreSort M nm fuel u σ = some (none, σ') →
      Inv U σ' ∧ σ'.colors.get u.Name = some 2 ∧ ∀ x ∈ σ.ordered, x ∈ σ'.ordered := by
  intro fuel
  induction fuel with
  | zero => intro u σ σ' _ _ _ h; simp [coreSort] at h
  | succ fuel ih =>
    intro u σ σ' hUu hu hI h
    simp only [coreSort] at h
    split at h
    · simp at h
    · simp at h
    · rename_i σ2 hloop
      have hI1 : Inv U { σ with colors := σ.colors.set u.Name 1 } := by
        constructor
        · exact hI.topo
        · intro n k hk hk1
          by_cases e : n = u.Name
          · subst e; simp [GoMap.get_set] at hk; exact absurd hk.symm hk1
          · simp only [GoMap.get_set_of_ne e] at hk
            exact hI.done n k hk hk1
        · intro x hx
          have h2 := hI.colored x hx
          have e : x.Name ≠ u.Name := by
            intro e; rw [e, hu] at h2; simp at h2
          simp only [GoMap.get_set_of_ne e]
          exact h2
        · exact hI.nodup
        · exact hI.sub
      obtain ⟨hI2, hsub2, hdeps⟩ := coreDependencies_inv hM hU ih _ _ _ hI1 hloop
      have hg := coreDependencies_colors (coreSort_colors M nm fuel) _ _ _ hloop
      have hu1 : σ2.colors.get u.Name = some 1 := by
        have := hg.keep u.Name (by simp [GoMap.get_set])
        rw [this]; simp [GoMap.get_set]
      have hnot : ∀ x ∈ σ2.ordered, x.Name ≠ u.Name := by
        intro x hx e
        have h2 := hI2.colored x hx
        rw [e, hu1] at h2
        simp at h2
      simp at h
      subst h
      refine ⟨?_, by simp [GoMap.get_set], ?_⟩
      · constructor
        · exact hI2.topo.snoc hdeps
        · intro n k hk hk1
          by_cases e : n = u.Name
          · exact ⟨u, by simp, e.symm⟩
          · simp only [GoMap.get_set_of_ne e] at hk
            obtain ⟨x, hx, hn⟩ := hI2.done n k hk hk1
            exact ⟨x, by simp [hx], hn⟩
        · intro x hx
          simp only [List.mem_append, List.mem_singleton] at hx
          rcases hx with hx | hx
          · simp only [GoMap.get_set_of_ne (hnot x hx)]
            exact hI2.colored x hx
          · subst hx; simp [GoMap.get_set]
        · simp only [List.map_append, List.map_cons, List.map_nil]
          rw [List.nodup_append]
          refine ⟨hI2.nodup, by simp, ?_⟩
          intro a ha hb
          simp only [List.mem_singleton] at hb
          obtain ⟨x, hx, hxa⟩ := List.mem_map.mp ha
          exact hnot x hx (hxa.trans hb)
        · intro x hx
          simp only [List.mem_append, List.mem_singleton] at hx
          rcases hx with hx | hx
          · exact hI2.sub x hx
          · subst hx; exact hUu
      · intro x hx
        simp only [List.mem_append]
        exact Or.inl (hsub2 x hx)

/-! ## The traversal and its projection -/

theorem Frame.self (s : Service) : Frame s s := ⟨rfl, rfl, rfl, rfl, rfl, rfl⟩

theorem getMap_fst (s : Service) :
    s.GetComponentsMap.1 =
      if s.componentsMapOnce = true then s.componentsMap else buildComponentsMap s.Components := by
  unfold Service.GetComponentsMap
  split <;> rfl

theorem getMap_snd_fields (s : Service) :
    s.GetComponentsMap.2.Name = s.Name ∧ s.GetComponentsMap.2.Labels = s.Labels ∧
    s.GetComponentsMap.2.Components = s.Components ∧
    s.GetComponentsMap.2.componentsOrderedOnce = s.componentsOrderedOnce ∧
    s.GetComponentsMap.2.componentsOrderedErr = s.componentsOrderedErr ∧
    s.GetComponentsMap.2.componentsOrdered = s.componentsOrdered := by
  unfold Service.GetComponentsMap
  split <;> simp

theorem getMap_snd_getMap (s : Service) :
    s.GetComponentsMap.2.GetComponentsMap.1 = s.GetComponentsMap.1 := by
  unfold Service.GetComponentsMap
  by_cases hb : s.componentsMapOnce = true
  · simp [hb]
  · simp [hb]

theorem Frame.throughGetMap {s0 s : Service} (h : Frame s0 s) : Frame s0 s.GetComponentsMap.2 := by
  obtain ⟨h1, h2, h3, h4, h5, h6⟩ := h
  obtain ⟨g1, g2, g3, g4, g5, _⟩ := getMap_snd_fields s
  exact ⟨g1.trans h1, g2.trans h2, g3.trans h3, g4.trans h4, g5.trans h5,
    (getMap_snd_getMap s).trans h6⟩

theorem Frame.setOrdered {s0 s : Service} (h : Frame s0 s) (o : List ServiceComponent) :
    Frame s0 { s with componentsOrdered := o } := by
  obtain ⟨h1, h2, h3, h4, h5, h6⟩ := h
  refine ⟨h1, h2, h3, h4, h5, ?_⟩
  rw [← h6, getMap_fst, getMap_fst]

theorem getMap_ordered (s : Service) :
    s.GetComponentsMap.2.componentsOrdered = s.componentsOrdered :=
  (getMap_snd_fields s).2.2.2.2.2

theorem dfsDependencies_core {s0 : Service}
    {visit : ServiceComponent → SortState → Option (Option String × SortState)}
    {visitC : ServiceComponent → Core → Option (Option String × Core)}
    (hv : ∀ v st, Frame s0 st.service →
      (visit v st).map projResult = visitC v st.core ∧
        ∀ e st', visit v st = some (e, st') → Frame s0 st'.service) :
    ∀ deps st, Frame s0 st.service →
      (dfsDependencies visit deps st).map projResult =
          coreDependencies s0.GetComponentsMap.1 s0.Name visitC deps st.core ∧
        ∀ e st', dfsDependencies visit deps st = some (e, st') → Frame s0 st'.service := by
  intro deps
  induction deps with
  | nil =>
    intro st hf
    refine ⟨by simp [dfsDependencies, coreDependencies, projResult], ?_⟩
    intro e st' h
    simp [dfsDependencies] at h
    rw [← h.2]; exact hf
  | cons d rest ih =>
    intro st hf
    have hf1 : Frame s0 st.service.GetComponentsMap.2 := hf.throughGetMap
    have hcore1 : ({ st with service := st.service.GetComponentsMap.2 } : SortState).core
        = st.core := by
      simp [SortState.core, getMap_ordered]
    simp only [dfsDependencies, coreDependencies]
    rw [hf.map]
    cases hget : s0.GetComponentsMap.1.get d with
    | none =>
      simp only
      refine ⟨by simp [projResult, hcore1, hf1.name], ?_⟩
      intro e st' h
      simp at h
      rw [← h.2]; exact hf1
    | some v =>
      simp only
      have hcol : st.core.colors = st.colors := rfl
      rw [hcol]
      cases hc : st.colors.get v.Name with
      | none =>
        simp only
        obtain ⟨hv1, hv2⟩ := hv v { st with service := st.service.GetComponentsMap.2 } hf1
        rw [hcore1] at hv1
        cases hvis : visit v { st with service := st.service.GetComponentsMap.2 } with
        | none =>
          rw [hvis] at hv1
          simp at hv1
          rw [← hv1]
          simp
        | some r =>
          obtain ⟨e, st2⟩ := r
          rw [hvis] at hv1
          simp [projResult] at hv1
          rw [← hv1]
          cases e with
          | none =>
            simp only
            exact ih st2 (hv2 _ _ hvis)
          | some err =>
            simp only
            refine ⟨by simp [projResult], ?_⟩
            intro e st' h
            simp at h
            rw [← h.2]; exact hv2 _ _ hvis
      | some vColor =>
        simp only
        by_cases h1 : vColor = 1
        · simp only [h1, if_true]
          refine ⟨by simp [projResult, hcore1, hf1.name], ?_⟩
          intro e st' h
          simp at h
          rw [← h.2]; exact hf1
        · simp only [h1, if_false]
          have := ih { st with service := st.service.GetComponentsMap.2 } hf1
          rw [hcore1] at this
          exact this

theorem dfsComponentSort_core (s0 : Service) :
    ∀ fuel u st, Frame s0 st.service →
      (dfsComponentSort fuel u st).map projResult =
          coreSort s0.GetComponentsMap.1 s0.Name fuel u st.core ∧
        ∀ e st', dfsComponentSort fuel u st = some (e, st') → Frame s0 st'.service := by
  intro fuel
  induction fuel with
  | zero =>
    intro u st _
    simp [dfsComponentSort, coreSort]
  | succ fuel ih =>
    intro u st hf
    obtain ⟨h1, h2⟩ := dfsDependencies_core ih u.Dependencies
      { st with colors := st.colors.set u.Name 1 } hf
    have hcore : ({ st with colors := st.colors.set u.Name 1 } : SortState).core
        = { st.core with colors := st.core.colors.set u.Name 1 } := rfl
    rw [hcore] at h1
    simp only [dfsComponentSort, coreSort]
    rw [← h1]
    cases hloop : dfsDependencies (dfsComponentSort fuel) u.Dependencies
        { st with colors := st.colors.set u.Name 1 } with
    | none => simp
    | some r =>
      obtain ⟨e, st2⟩ := r
      have hf2 := h2 _ _ hloop
      cases e with
      | some err =>
        refine ⟨rfl, ?_⟩
        intro e st' h
        simp at h
        rw [← h.2]; exact hf2
      | none =>
        refine ⟨rfl, ?_⟩
        intro e st' h
        simp at h
        rw [← h.2]
        exact hf2.setOrdered _

theorem sortComponents_core (s0 : Service) (fuel : Nat) :
    ∀ cs st, Frame s0 st.service →
      SortSim s0 (sortComponents fuel cs st)
        (coreComponents s0.GetComponentsMap.1 s0.Name fuel cs st.core) := by
  intro cs
  induction cs with
  | nil =>
    intro st hf
    simp only [sortComponents, coreComponents]
    exact ⟨st, rfl, rfl, hf⟩
  | cons c rest ih =>
    intro st hf
    simp only [sortComponents, coreComponents]
    have hcol : st.core.colors = st.colors := rfl
    rw [hcol]
    cases hc : st.colors.get c.Name with
    | some k => simp only; exact ih st hf
    | none =>
      simp only
      obtain ⟨h1, h2⟩ := dfsComponentSort_core s0 fuel c st hf
      rw [← h1]
      cases hd : dfsComponentSort fuel c st with
      | none => simp [SortSim]
      | some r =>
        obtain ⟨e, st2⟩ := r
        have hf2 := h2 _ _ hd
        cases e with
        | none =>
          simp only [Option.map_some', projResult]
          exact ih st2 hf2
        | some err =>
          simp only [Option.map_some', projResult, SortSim]
          refine ⟨_, rfl, rfl, rfl, hf2.name, hf2.labels, hf2.comps, ?_⟩
          rw [← hf2.map, getMap_fst, getMap_fst]

/-! ## The loop over the components -/

theorem coreComponents_colors (M : GoMap ServiceComponent) (nm : String) (fuel : Nat) :
    ∀ cs σ σ', coreComponents M nm fuel cs σ = some (none, σ') →
      ColorsGrow σ.colors σ'.colors := by
  intro cs
  induction cs with
  | nil =>
    intro σ σ' h
    simp [coreComponents] at h
    subst h
    exact ColorsGrow.same _
  | cons c rest ih =>
    intro σ σ' h
    simp only [coreComponents] at h
    split at h
    · exact ih σ σ' h
    · rename_i hc
      split at h
      · simp at h
      · simp at h
      · rename_i σ2 hvis
        exact (coreSort_colors M nm fuel c σ σ2 hc hvis).trans (ih σ2 σ' h)

theorem coreComponents_total (M : GoMap ServiceComponent) (nm : String) (fuel : Nat)
    (hfuel : M.length < fuel) :
    ∀ cs σ, coreComponents M nm fuel cs σ ≠ none := by
  intro cs
  induction cs with
  | nil => intro σ; simp [coreComponents]
  | cons c rest ih =>
    intro σ h
    simp only [coreComponents] at h
    split at h
    · exact ih σ h
    · split at h
      · rename_i hvis
        exact coreSort_total M nm fuel c σ
          (lt_of_le_of_lt (uncoloured_le_length M _) hfuel) hvis
      · simp at h
      · rename_i σ2 _
        exact ih σ2 h

theorem coreComponents_inv {M : GoMap ServiceComponent} {nm : String}
    {U : ServiceComponent → Prop} (fuel : Nat)
    (hM : WellKeyed M) (hU : ∀ k v, M.get k = some v → U v) :
    ∀ cs σ σ', (∀ c ∈ cs, U c) → Inv U σ → coreComponents M nm fuel cs σ = some (none, σ') →
      Inv U σ' ∧ ∀ c ∈ cs, σ'.colors.get c.Name ≠ none := by
  intro cs
  induction cs with
  | nil =>
    intro σ σ' _ hI h
    simp [coreComponents] at h
    subst h
    exact ⟨hI, by simp⟩
  | cons c rest ih =>
    intro σ σ' hcs hI h
    have hrest : ∀ c ∈ rest, U c := fun x hx => hcs x (List.mem_cons_of_mem _ hx)
    simp only [coreComponents] at h
    split at h
    · rename_i k hc
      obtain ⟨hI2, hall⟩ := ih σ σ' hrest hI h
      refine ⟨hI2, ?_⟩
      intro x hx
      rcases List.mem_cons.mp hx with e | e
      · subst e
        have hg := coreComponents_colors M nm fuel rest σ σ' h
        exact hg.dom _ (by rw [hc]; simp)
      · exact hall x e
    · rename_i hc
      split at h
      · simp at h
      · simp at h
      · rename_i σ2 hvis
        obtain ⟨hI2, hc2, _⟩ :=
          coreSort_inv hM hU fuel c σ σ2 (hcs c (List.mem_cons_self _ _)) hc hI hvis
        obtain ⟨hI3, hall⟩ := ih σ2 σ' hrest hI2 h
        refine ⟨hI3, ?_⟩
        intro x hx
        rcases List.mem_cons.mp hx with e | e
        · subst e
          have hg := coreComponents_colors M nm fuel rest σ2 σ' h
          exact hg.dom _ (by rw [hc2]; simp)
        · exact hall x e

/-! ## The component map built from the components -/

theorem foldl_set_get (cs : List ServiceComponent) :
    ∀ (acc : GoMap ServiceComponent) (n : String) (v : ServiceComponent),
      (cs.foldl (fun m c => m.set c.Name c) acc).get n = some v →
        (v ∈ cs ∧ v.Name = n) ∨ acc.get n = some v := by
  induction cs with
  | nil => intro acc n v h; exact Or.inr h
  | cons c rest ih =>
    intro acc n v h
    simp only [List.foldl_cons] at h
    rcases ih _ n v h with h1 | h1
    · exact Or.inl ⟨List.mem_cons_of_mem _ h1.1, h1.2⟩
    · by_cases e : n = c.Name
      · subst e
        simp [GoMap.get_set] at h1
        subst h1
        exact Or.inl ⟨List.mem_cons_self _ _, rfl⟩
      · rw [GoMap.get_set_of_ne e] at h1
        exact Or.inr h1

theorem foldl_set_get_ne_none (cs : List ServiceComponent) :
    ∀ (acc : GoMap ServiceComponent) (n : String),
      ((∃ c ∈ cs, c.Name = n) ∨ acc.get n ≠ none) →
        (cs.foldl (fun m c => m.set c.Name c) acc).get n ≠ none := by
  induction cs with
  | nil =>
    intro acc n h
    rcases h with ⟨c, hc, _⟩ | h
    · simp at hc
    · exact h
  | cons c rest ih =>
    intro acc n h
    simp only [List.foldl_cons]
    apply ih
    by_cases e : n = c.Name
    · right; subst e; simp [GoMap.get_set]
    · rcases h with ⟨x, hx, hxn⟩ | h
      · rcases List.mem_cons.mp hx with e2 | e2
        · subst e2; exact absurd hxn.symm e
        · exact Or.inl ⟨x, e2, hxn⟩
      · right; rw [GoMap.get_set_of_ne e]; exact h

theorem buildComponentsMap_get {cs : List ServiceComponent} {n : String}
    {v : ServiceComponent} (h : (buildComponentsMap cs).get n = some v) :
    v ∈ cs ∧ v.Name = n := by
  rcases foldl_set_get cs _ n v h with h1 | h1
  · exact h1
  · simp [GoMap.empty, GoMap.get] at h1

theorem buildComponentsMap_wellKeyed (cs : List ServiceComponent) :
    WellKeyed (buildComponentsMap cs) :=
  fun _ _ h => (buildComponentsMap_get h).2

theorem buildComponentsMap_get_of_mem {cs : List ServiceComponent}
    (hnd : (cs.map (fun x => x.Name)).Nodup) {c : ServiceComponent} (hc : c ∈ cs) :
    (buildComponentsMap cs).get c.Name = some c := by
  have h := foldl_set_get_ne_none cs GoMap.empty c.Name (Or.inl ⟨c, hc, rfl⟩)
  cases hq : (buildComponentsMap cs).get c.Name with
  | none => exact absurd hq h
  | some v =>
    obtain ⟨hv, hn⟩ := buildComponentsMap_get hq
    rw [List.inj_on_of_nodup_map hnd hv hc hn]

/-! ## No error on a valid component graph -/

theorem coreDependencies_noerr {cs : List ServiceComponent} {nm : String}
    (hnd : (cs.map (fun x => x.Name)).Nodup)
    (hdeps : ∀ c ∈ cs, ∀ d ∈ c.Dependencies, ∃ x ∈ cs, x.Name = d)
    (hacyc : ∀ c, ¬ Relation.TransGen (DependsOn cs) c c)
    {visit : ServiceComponent → Core → Option (Option String × Core)}
    (hg : ∀ v σ σ', σ.colors.get v.Name = none → visit v σ = some (none, σ') →
      ColorsGrow σ.colors σ'.colors)
    (hv : ∀ v σ e σ', v ∈ cs → σ.colors.get v.Name = none → GrayReach cs σ.colors v →
      visit v σ ≠ some (some e, σ'))
    {u : ServiceComponent} (hu : u ∈ cs) :
    ∀ deps σ e σ', (∀ d ∈ deps, d ∈ u.Dependencies) → GrayReach cs σ.colors u →
      coreDependencies (buildComponentsMap cs) nm visit deps σ ≠ some (some e, σ') := by
  intro deps
  induction deps with
  | nil => intro σ e σ' _ _ h; simp [coreDependencies] at h
  | cons d rest ih =>
    intro σ e σ' hsub hgr h
    have hrest : ∀ d ∈ rest, d ∈ u.Dependencies :=
      fun x hx => hsub x (List.mem_cons_of_mem _ hx)
    have hd : d ∈ u.Dependencies := hsub d (List.mem_cons_self _ _)
    simp only [coreDependencies] at h
    split at h
    · rename_i hget
      obtain ⟨x, hx, hxn⟩ := hdeps u hu d hd
      have := buildComponentsMap_get_of_mem hnd hx
      rw [hxn, hget] at this
      simp at this
    · rename_i v hget
      obtain ⟨hvcs, hvn⟩ := buildComponentsMap_get hget
      have hstep : DependsOn cs u v := ⟨hu, hvcs, by rw [hvn]; exact hd⟩
      split at h
      · rename_i hc
        split at h
        · simp at h
        · rename_i err σ2 hvis
          refine hv v σ err σ2 hvcs hc ?_ hvis
          intro n hn
          obtain ⟨x, hx, hxn, hr⟩ := hgr n hn
          exact ⟨x, hx, hxn, hr.tail hstep⟩
        · rename_i σ2 hvis
          have hg2 := hg v σ σ2 hc hvis
          refine ih σ2 e σ' hrest ?_ h
          intro n hn
          exact hgr n ((hg2.gray n).mp hn)
      · rename_i vColor hc
        split at h
        · rename_i h1
          subst h1
          obtain ⟨x, hx, hxn, hr⟩ := hgr v.Name hc
          have hxv : x = v := List.inj_on_of_nodup_map hnd hx hvcs hxn
          subst hxv
          exact hacyc x (Relation.TransGen.tail' hr hstep)
        · exact ih σ e σ' hrest hgr h

theorem coreSort_noerr {cs : List ServiceComponent} {nm : String}
    (hnd : (cs.map (fun x => x.Name)).Nodup)
    (hdeps : ∀ c ∈ cs, ∀ d ∈ c.Dependencies, ∃ x ∈ cs, x.Name = d)
    (hacyc : ∀ c, ¬ Relation.TransGen (DependsOn cs) c c) :
    ∀ fuel u σ e σ', u ∈ cs → σ.colors.get u.Name = none → GrayReach cs σ.colors u →
      coreSort (buildComponentsMap cs) nm fuel u σ ≠ some (some e, σ') := by
  intro fuel
  induction fuel with
  | zero => intro u σ e σ' _ _ _ h; simp [coreSort] at h
  | succ fuel ih =>
    intro u σ e σ' hu hc hgr h
    simp only [coreSort] at h
    split at h
    · simp at h
    · rename_i err σ2 hloop
      refine coreDependencies_noerr hnd hdeps hacyc (coreSort_colors _ nm fuel) ih hu
        u.Dependencies _ err σ2 (fun _ hd => hd) ?_ hloop
      intro n hn
      by_cases e1 : n = u.Name
      · exact ⟨u, hu, e1.symm, Relation.ReflTransGen.refl⟩
      · simp only [GoMap.get_set_of_ne e1] at hn
        exact hgr n hn
    · simp at h

theorem coreComponents_noerr {cs : List ServiceComponent} {nm : String} (fuel : Nat)
    (hnd : (cs.map (fun x => x.Name)).Nodup)
    (hdeps : ∀ c ∈ cs, ∀ d ∈ c.Dependencies, ∃ x ∈ cs, x.Name = d)
    (hacyc : ∀ c, ¬ Relation.TransGen (DependsOn cs) c c) :
    ∀ l σ e σ', (∀ c ∈ l, c ∈ cs) → (∀ n, σ.colors.get n ≠ some 1) →
      coreComponents (buildComponentsMap cs) nm fuel l σ ≠ some (some e, σ') := by
  intro l
  induction l with
  | nil => intro σ e σ' _ _ h; simp [coreComponents] at h
  | cons c rest ih =>
    intro σ e σ' hl hgray h
    have hrest : ∀ c ∈ rest, c ∈ cs := fun x hx => hl x (List.mem_cons_of_mem _ hx)
    simp only [coreComponents] at h
    split at h
    · exact ih σ e σ' hrest hgray h
    · rename_i hc
      split at h
      · simp at h
      · rename_i err σ2 hvis
        refine coreSort_noerr hnd hdeps hacyc fuel c σ err σ2 (hl c (List.mem_cons_self _ _))
          hc ?_ hvis
        intro n hn
        exact absurd hn (hgray n)
      · rename_i σ2 hvis
        have hg2 := coreSort_colors _ nm fuel c σ σ2 hc hvis
        refine ih σ2 e σ' hrest ?_ h
        intro n hn
        exact hgray n ((hg2.gray n).mp hn)

/-! ## The first call of `GetComponentsSortedTopologically` -/

theorem firstRun_ne_none (s : Service) : firstRun s ≠ none :=
  coreComponents_total _ _ _ (by unfold sortFuel; omega) _ _

/-- Outcome of the first call in terms of its projected run: either the run succeeded
and its ordered list is returned with the stored error, or it failed and the empty list
is returned with the error of the run. In both cases the results are stored in the
service, the flag is set and the component map is still the same. -/
theorem getSorted_first (s : Service) (h : s.componentsOrderedOnce = false) :
    ∃ l e s', s.GetComponentsSortedTopologically = some ((l, e), s') ∧
      s'.componentsOrderedOnce = true ∧ s'.componentsOrdered = l ∧
      s'.componentsOrderedErr = e ∧ s'.GetComponentsMap.1 = s.GetComponentsMap.1 ∧
      s'.Name = s.Name ∧ s'.Labels = s.Labels ∧ s'.Components = s.Components ∧
      ((∃ σ', firstRun s = some (none, σ') ∧ l = σ'.ordered ∧ e = s.componentsOrderedErr) ∨
        (∃ err σ', firstRun s = some (some err, σ') ∧ l = [] ∧ e = some err)) := by
  have hsim := sortComponents_core s (sortFuel s) s.Components
    { service := s, colors := GoMap.empty } (Frame.self s)
  have hcore : ({ service := s, colors := GoMap.empty } : SortState).core
      = { colors := GoMap.empty, ordered := s.componentsOrdered } := rfl
  rw [hcore] at hsim
  have hne := firstRun_ne_none s
  unfold firstRun at hne ⊢
  unfold Service.GetComponentsSortedTopologically
  simp only [h, Bool.false_eq_true, if_false]
  cases hrc : coreComponents s.GetComponentsMap.1 s.Name (sortFuel s) s.Components
      { colors := GoMap.empty, ordered := s.componentsOrdered } with
  | none => exact absurd hrc hne
  | some r =>
    obtain ⟨e, σ'⟩ := r
    rw [hrc] at hsim
    cases e with
    | none =>
      obtain ⟨st', hst, hc, hf⟩ := hsim
      rw [hst]
      refine ⟨_, _, _, rfl, rfl, rfl, rfl, ?_, hf.name, hf.labels, hf.comps, ?_⟩
      · rw [← hf.map, getMap_fst, getMap_fst]
      · left
        refine ⟨σ', rfl, ?_, hf.err⟩
        rw [← hc]; rfl
    | some err =>
      obtain ⟨st', hst, ho, he, hn, hl, hcs, hm⟩ := hsim
      rw [hst]
      refine ⟨_, _, _, rfl, rfl, rfl, rfl, ?_, hn, hl, hcs, ?_⟩
      · rw [← hm, getMap_fst, getMap_fst]
      · right
        exact ⟨err, σ', rfl, ho, he⟩

theorem Inv.init (U : ServiceComponent → Prop) :
    Inv U { colors := GoMap.empty, ordered := [] } := by
  constructor
  · exact TopologicalOrder.nil
  · intro n k h; simp [GoMap.empty, GoMap.get] at h
  · intro x hx; simp at hx
  · simp
  · intro x hx; simp at hx

/-! ## Services in use -/

theorem Service.WF.ofNew (name : String) (labels : List (String × String))
    (components : List ServiceComponent) : (Service.new name labels components).WF := by
  constructor
  · rw [getMap_fst]
    simp only [Service.new, Bool.false_eq_true, if_false]
    exact buildComponentsMap_wellKeyed _
  · intro _; exact ⟨rfl, rfl⟩
  · intro h; simp [Service.new] at h

theorem Service.WF.assign {s : Service} (h : s.WF) (name : String)
    (labels : List (String × String)) (components : List ServiceComponent) :
    ({ s with Name := name, Labels := labels, Components := components } : Service).WF := by
  constructor
  · have hk := h.keyed
    rw [getMap_fst] at hk ⊢
    by_cases hb : s.componentsMapOnce = true
    · simp only [hb, if_true] at hk ⊢
      exact hk
    · simp only [hb, if_false]
      exact buildComponentsMap_wellKeyed _
  · exact h.unsorted
  · exact h.sorted

theorem Service.WF.afterGetMap {s : Service} (h : s.WF) : s.GetComponentsMap.2.WF := by
  obtain ⟨_, _, _, g4, g5, g6⟩ := getMap_snd_fields s
  constructor
  · rw [getMap_snd_getMap]; exact h.keyed
  · intro hb
    rw [g4] at hb
    rw [g5, g6]
    exact h.unsorted hb
  · intro hb he
    rw [g4] at hb
    rw [g5] at he
    rw [g6]
    exact h.sorted hb he

/-- A call on a service in use returns a topological order whenever it returns no
error, and leaves a service satisfying the invariant. -/
theorem Service.WF.getSorted {s : Service} (h : s.WF) {l : List ServiceComponent}
    {e : Option String} {s' : Service}
    (hcall : s.GetComponentsSortedTopologically = some ((l, e), s')) :
    s'.WF ∧ (e = none → TopologicalOrder l) := by
  by_cases hb : s.componentsOrderedOnce = true
  · unfold Service.GetComponentsSortedTopologically at hcall
    simp only [hb, if_true, Option.some.injEq, Prod.mk.injEq] at hcall
    obtain ⟨⟨h1, h2⟩, h3⟩ := hcall
    subst h1 h2 h3
    exact ⟨h, fun he => h.sorted hb he⟩
  · have hb2 : s.componentsOrderedOnce = false := by simpa using hb
    obtain ⟨l1, e1, s1, hc1, ho, hl, he, hm, _, _, _, hrun⟩ := getSorted_first s hb2
    rw [hc1] at hcall
    simp only [Option.some.injEq, Prod.mk.injEq] at hcall
    obtain ⟨⟨h1, h2⟩, h3⟩ := hcall
    subst h1 h2 h3
    have htopo : e1 = none → TopologicalOrder l1 := by
      intro hnone
      rcases hrun with ⟨σ', hr, hlσ, _⟩ | ⟨err, σ', _, _, herr⟩
      · unfold firstRun at hr
        rw [(h.unsorted hb2).1] at hr
        have := coreComponents_inv (U := fun _ => True) _ h.keyed (fun _ _ _ => trivial)
          _ _ _ (fun _ _ => trivial) (Inv.init _) hr
        rw [hlσ]
        exact this.1.topo
      · rw [herr] at hnone; simp at hnone
    refine ⟨⟨?_, ?_, ?_⟩, htopo⟩
    · rw [hm]; exact h.keyed
    · intro hf; rw [ho] at hf; simp at hf
    · intro _ hnone
      rw [hl]
      exact htopo (he ▸ hnone)

theorem Service.WF.apply {s s' : Service} (h : s.WF) (op : ServiceOp)
    (hop : s.apply op = some s') : s'.WF := by
  cases op with
  | assign name labels components =>
    simp only [Service.apply, Option.some.injEq] at hop
    subst hop
    exact h.assign name labels components
  | getComponentsMap =>
    simp only [Service.apply, Option.some.injEq] at hop
    subst hop
    exact h.afterGetMap
  | getComponentsSortedTopologically =>
    simp only [Service.apply] at hop
    cases hc : s.GetComponentsSortedTopologically with
    | none => rw [hc] at hop; simp at hop
    | some r =>
      obtain ⟨⟨l, e⟩, s1⟩ := r
      rw [hc] at hop
      simp at hop
      subst hop
      exact (h.getSorted hc).1

theorem Service.WF.run (ops : List ServiceOp) :
    ∀ {s s' : Service}, s.WF → s.run ops = some s' → s'.WF := by
  induction ops with
  | nil =>
    intro s s' h hrun
    simp only [Service.run, Option.some.injEq] at hrun
    subst hrun
    exact h
  | cons op ops ih =>
    intro s s' h hrun
    simp only [Service.run] at hrun
    split at hrun
    · simp at hrun
    · rename_i s1 hop
      exact ih (h.apply op hop) hrun

theorem Service.Reachable.wf {s : Service} (h : s.Reachable) : s.WF := by
  obtain ⟨name, labels, components, ops, hrun⟩ := h
  exact Service.WF.run ops (Service.WF.ofNew name labels components) hrun

/-! ## The first sort of a service -/

theorem firstRun_success {s : Service} (hu : s.Unsorted) {σ' : Core}
    (hr : firstRun s = some (none, σ')) :
    Inv (fun x => x ∈ s.Components) σ' ∧
      (∀ c ∈ s.Components, σ'.colors.get c.Name ≠ none) ∧
      ∀ n, σ'.colors.get n ≠ some 1 := by
  obtain ⟨_, ho, _, hm⟩ := hu
  unfold firstRun at hr
  rw [ho, hm] at hr
  obtain ⟨hI, hall⟩ := coreComponents_inv (U := fun x => x ∈ s.Components) _
    (buildComponentsMap_wellKeyed _) (fun _ _ h => (buildComponentsMap_get h).1)
    _ _ _ (fun _ hc => hc) (Inv.init _) hr
  refine ⟨hI, hall, ?_⟩
  intro n hn
  have hg := coreComponents_colors _ _ _ _ _ _ hr
  have := (hg.gray n).mp hn
  simp [GoMap.empty, GoMap.get] at this

theorem firstRun_perm {s : Service} (hu : s.Unsorted)
    (hnd : (s.Components.map (fun x => x.Name)).Nodup) {σ' : Core}
    (hr : firstRun s = some (none, σ')) : σ'.ordered.Perm s.Components := by
  obtain ⟨hI, hall, hgray⟩ := firstRun_success hu hr
  rw [List.perm_ext_iff_of_nodup (List.Nodup.of_map _ hI.nodup) (List.Nodup.of_map _ hnd)]
  intro a
  constructor
  · exact hI.sub a
  · intro ha
    cases hq : σ'.colors.get a.Name with
    | none => exact absurd hq (hall a ha)
    | some k =>
      have hk : k ≠ 1 := by
        intro e; subst e; exact hgray _ hq
      obtain ⟨x, hx, hxn⟩ := hI.done a.Name k hq hk
      have : x = a := List.inj_on_of_nodup_map hnd (hI.sub x hx) ha hxn
      rw [← this]; exact hx

/-- In a topological order of the components with pairwise distinct names, a component
stands after every component it depends on, directly or through a chain. -/
theorem TopologicalOrder.lt_of_transGen {cs l : List ServiceComponent}
    (ht : TopologicalOrder l) (hp : l.Perm cs)
    (hnd : (cs.map (fun x => x.Name)).Nodup) {a b : ServiceComponent}
    (hab : Relation.TransGen (DependsOn cs) a b) :
    ∀ i j : Nat, l[i]? = some a → l[j]? = some b → j < i := by
  have hl : l.Nodup := (hp.nodup_iff).mpr (List.Nodup.of_map _ hnd)
  have hstep : ∀ a b, DependsOn cs a b →
      ∀ i j : Nat, l[i]? = some a → l[j]? = some b → j < i := by
    intro a b hd i j hi hj
    obtain ⟨k, y, hk, hy, hyn⟩ := ht i a hi b.Name hd.2.2
    have hycs : y ∈ cs := hp.subset (List.mem_iff_getElem?.mpr ⟨k, hy⟩)
    have hyb : y = b := List.inj_on_of_nodup_map hnd hycs hd.2.1 hyn
    subst hyb
    obtain ⟨hk1, hk2⟩ := List.getElem?_eq_some.mp hy
    obtain ⟨hj1, hj2⟩ := List.getElem?_eq_some.mp hj
    have : k = j := (hl.getElem_inj_iff).mp (hk2.trans hj2.symm)
    omega
  induction hab with
  | single h => exact hstep _ _ h
  | tail _ h2 ih =>
    rename_i b c
    intro i j hi hj
    obtain ⟨k, hk⟩ := List.mem_iff_getElem?.mp (hp.symm.subset h2.1)
    have h3 := ih i k hi hk
    have h4 := hstep _ _ h2 k j hk hj
    omega

theorem Service.Unsorted.ofFresh (name : String) (labels : List (String × String))
    (components : List ServiceComponent) : (Service.new name labels components).Unsorted :=
  ⟨rfl, rfl, rfl, rfl⟩

/-- The first sort of a service: what is returned, in terms of the projected run. -/
theorem getSorted_unsorted {s : Service} (hu : s.Unsorted) :
    ∃ l e s', s.GetComponentsSortedTopologically = some ((l, e), s') ∧
      ((∃ σ', firstRun s = some (none, σ') ∧ l = σ'.ordered ∧ e = none) ∨
        (∃ err σ', firstRun s = some (some err, σ') ∧ l = [] ∧ e = some err)) := by
  obtain ⟨l, e, s', hc, _, _, _, _, _, _, _, hrun⟩ := getSorted_first s hu.1
  refine ⟨l, e, s', hc, ?_⟩
  rcases hrun with ⟨σ', h1, h2, h3⟩ | h
  · exact Or.inl ⟨σ', h1, h2, h3.trans hu.2.2.1⟩
  · exact Or.inr h

/-- The first sort of a service with pairwise distinct component names returns, when it
returns no error, a topological order that is a permutation of the components. -/
theorem getSorted_unsorted_ok {s : Service} (hu : s.Unsorted)
    (hnd : (s.Components.map (fun x => x.Name)).Nodup)
    {l : List ServiceComponent} {s' : Service}
    (h : s.GetComponentsSortedTopologically = some ((l, none), s')) :
    TopologicalOrder l ∧ l.Perm s.Components := by
  obtain ⟨l1, e1, s1, hc, hrun⟩ := getSorted_unsorted hu
  rw [hc] at h
  simp only [Option.some.injEq, Prod.mk.injEq] at h
  obtain ⟨⟨h1, h2⟩, _⟩ := h
  subst h1 h2
  rcases hrun with ⟨σ', hr, hl, _⟩ | ⟨err, σ', _, _, he⟩
  · rw [hl]
    exact ⟨(firstRun_success hu hr).1.topo, firstRun_perm hu hnd hr⟩
  · simp at he

/-- The first sort of a service returns an error and the empty list unless it returns
no error. -/
theorem getSorted_unsorted_err {s : Service} (hu : s.Unsorted)
    (hno : ∀ l s', s.GetComponentsSortedTopologically ≠ some ((l, none), s')) :
    ∃ err s', s.GetComponentsSortedTopologically = some (([], some err), s') := by
  obtain ⟨l1, e1, s1, hc, hrun⟩ := getSorted_unsorted hu
  rcases hrun with ⟨σ', _, _, he⟩ | ⟨err, σ', _, hl, he⟩
  · subst he; exact absurd hc (hno _ _)
  · subst hl he; exact ⟨err, s1, hc⟩

theorem acyclic_of_rank {cs : List ServiceComponent} (f : ServiceComponent → Nat)
    (h : ∀ a b, DependsOn cs a b → f b < f a) :
    ∀ c, ¬ Relation.TransGen (DependsOn cs) c c := by
  have key : ∀ a b, Relation.TransGen (DependsOn cs) a b → f b < f a := by
    intro a b hab
    induction hab with
    | single h1 => exact h _ _ h1
    | tail _ h2 ih => exact lt_trans (h _ _ h2) ih
  intro c hc
  exact lt_irrefl _ (key c c hc)

/-! ## Results on `GetComponentsSortedTopologically` -/

/-- C1: for every service in use (any service reached from a newly constructed one by
assignments to its exported fields and calls of its getters), when
`GetComponentsSortedTopologically` returns no error the returned list is in topological
order: every name in the `Dependencies` of the component at a position is the name of a
component at an earlier position. -/
theorem getComponentsSortedTopologically_topological (s : Service) (hs : s.Reachable)
    (l : List ServiceComponent) (s' : Service)
    (h : s.GetComponentsSortedTopologically = some ((l, none), s')) :
    TopologicalOrder l :=
  (hs.wf.getSorted h).2 rfl

theorem getComponentsSortedTopologically_topological_witness :
    (Service.new "service" [] reversedComponents).Reachable ∧
    TopologicalOrder [mkComponent "c" [], mkComponent "b" ["c"], mkComponent "a" ["b"]] :=
  ⟨⟨"service", [], reversedComponents, [], rfl⟩,
    getComponentsSortedTopologically_topological (Service.new "service" [] reversedComponents)
      ⟨"service", [], reversedComponents, [], rfl⟩ _ _ rfl⟩

/-- The first sort of a service with pairwise distinct component names in which some
component depends on itself, directly or through a chain of dependencies, returns an
error and the nil list. -/
theorem firstSort_cycle {s : Service} (hu : s.Unsorted)
    (hnd : (s.Components.map (fun x => x.Name)).Nodup)
    (hcyc : ∃ c, Relation.TransGen (DependsOn s.Components) c c) :
    ∃ err s', s.GetComponentsSortedTopologically = some (([], some err), s') := by
  apply getSorted_unsorted_err hu
  intro l s' h
  obtain ⟨ht, hp⟩ := getSorted_unsorted_ok hu hnd h
  obtain ⟨c, hc⟩ := hcyc
  have hcmem : c ∈ s.Components := by
    cases hc with
    | single h1 => exact h1.2.1
    | tail _ h2 => exact h2.2.1
  obtain ⟨i, hi⟩ := List.mem_iff_getElem?.mp (hp.symm.subset hcmem)
  exact lt_irrefl _ (ht.lt_of_transGen hp hnd hc i i hi hi)

/-- The first sort of a service with pairwise distinct component names in which some
component lists a dependency that names no component returns an error and the nil
list. -/
theorem firstSort_missing {s : Service} (hu : s.Unsorted)
    (hnd : (s.Components.map (fun x => x.Name)).Nodup)
    (hmiss : ∃ c ∈ s.Components, ∃ d ∈ c.Dependencies, ∀ x ∈ s.Components, x.Name ≠ d) :
    ∃ err s', s.GetComponentsSortedTopologically = some (([], some err), s') := by
  apply getSorted_unsorted_err hu
  intro l s' h
  obtain ⟨ht, hp⟩ := getSorted_unsorted_ok hu hnd h
  obtain ⟨c, hc, d, hd, hno⟩ := hmiss
  obtain ⟨i, hi⟩ := List.mem_iff_getElem?.mp (hp.symm.subset hc)
  obtain ⟨j, y, _, hy, hyn⟩ := ht i c hi d hd
  exact hno y (hp.subset (List.mem_iff_getElem?.mpr ⟨j, hy⟩)) hyn

/-- The first sort of a service with pairwise distinct component names, all dependencies
naming components and no dependency cycle returns a list and the nil error. -/
theorem firstSort_valid {s : Service} (hu : s.Unsorted)
    (hnd : (s.Components.map (fun x => x.Name)).Nodup)
    (hdeps : ∀ c ∈ s.Components, ∀ d ∈ c.Dependencies, ∃ x ∈ s.Components, x.Name = d)
    (hacyc : ∀ c, ¬ Relation.TransGen (DependsOn s.Components) c c) :
    ∃ l s', s.GetComponentsSortedTopologically = some ((l, none), s') := by
  obtain ⟨l1, e1, s1, hc, hrun⟩ := getSorted_unsorted hu
  rcases hrun with ⟨σ', _, _, he⟩ | ⟨err, σ', hr, _, _⟩
  · subst he; exact ⟨l1, s1, hc⟩
  · exfalso
    unfold firstRun at hr
    rw [hu.2.2.2] at hr
    exact coreComponents_noerr _ hnd hdeps hacyc _ _ err σ' (fun _ h => h)
      (by intro n; simp [GoMap.empty, GoMap.get]) hr

theorem testComponents_acyclic :
    ∀ c, ¬ Relation.TransGen (DependsOn testComponents) c c :=
  acyclic_of_rank (fun c => c.Dependencies.length) (by
    rintro a b ⟨ha, hb, hd⟩
    simp only [testComponents, List.mem_cons, List.mem_singleton,
      List.not_mem_nil, or_false] at ha hb
    rcases ha with rfl | rfl | rfl <;> rcases hb with rfl | rfl | rfl <;>
      simp [mkComponent] at hd ⊢)

/-! ## Lazy evaluation -/

theorem run_of_sorted (ops : List ServiceOp) :
    ∀ s : Service, s.componentsOrderedOnce = true →
      ∃ s2, s.run ops = some s2 ∧ s2.componentsOrderedOnce = true ∧
        s2.componentsOrdered = s.componentsOrdered ∧
        s2.componentsOrderedErr = s.componentsOrderedErr := by
  induction ops with
  | nil => intro s h; exact ⟨s, rfl, h, rfl, rfl⟩
  | cons op ops ih =>
    intro s h
    cases op with
    | assign name labels components =>
      obtain ⟨s2, h1, h2, h3, h4⟩ := ih
        { s with Name := name, Labels := labels, Components := components } h
      exact ⟨s2, by simpa [Service.run, Service.apply] using h1, h2, h3, h4⟩
    | getComponentsMap =>
      obtain ⟨_, _, _, g4, g5, g6⟩ := getMap_snd_fields s
      obtain ⟨s2, h1, h2, h3, h4⟩ := ih s.GetComponentsMap.2 (g4.trans h)
      exact ⟨s2, by simpa [Service.run, Service.apply] using h1, h2, h3.trans g6,
        h4.trans g5⟩
    | getComponentsSortedTopologically =>
      obtain ⟨s2, h1, h2, h3, h4⟩ := ih s h
      refine ⟨s2, ?_, h2, h3, h4⟩
      simp only [Service.run, Service.apply, Service.GetComponentsSortedTopologically, h,
        if_true, Option.map_some']
      exact h1

theorem getSorted_of_sorted (s : Service) (h : s.componentsOrderedOnce = true) :
    s.GetComponentsSortedTopologically =
      some ((s.componentsOrdered, s.componentsOrderedErr), s) := by
  simp [Service.GetComponentsSortedTopologically, h]

/-- C10: `GetComponentsSortedTopologically` is evaluated once. For every service the call
returns a pair and leaves a service such that, whatever is done with the service
afterwards (assignments to its exported fields, `Components` among them, calls of
`GetComponentsMap`, further calls of `GetComponentsSortedTopologically`), a call
returns the same pair again and leaves the service as it found it: the sort is not run
again. -/
theorem getComponentsSortedTopologically_once (s : Service) :
    ∃ r s1, s.GetComponentsSortedTopologically = some (r, s1) ∧
      ∀ ops, ∃ s2, s1.run ops = some s2 ∧
        s2.GetComponentsSortedTopologically = some (r, s2) := by
  have key : ∃ r s1, s.GetComponentsSortedTopologically = some (r, s1) ∧
      s1.componentsOrderedOnce = true ∧ s1.componentsOrdered = r.1 ∧
      s1.componentsOrderedErr = r.2 := by
    by_cases hb : s.componentsOrderedOnce = true
    · exact ⟨_, s, getSorted_of_sorted s hb, hb, rfl, rfl⟩
    · have hb2 : s.componentsOrderedOnce = false := by simpa using hb
      obtain ⟨l, e, s', hc, h1, h2, h3, _⟩ := getSorted_first s hb2
      exact ⟨(l, e), s', hc, h1, h2, h3⟩
  obtain ⟨r, s1, hc, h1, h2, h3⟩ := key
  refine ⟨r, s1, hc, ?_⟩
  intro ops
  obtain ⟨s2, hrun, g1, g2, g3⟩ := run_of_sorted ops s1 h1
  refine ⟨s2, hrun, ?_⟩
  rw [getSorted_of_sorted s2 g1, g2, g3, h2, h3]

/-! ## `pkg/engine/apply/engine_apply.go` -/

theorem executeAction_fst {Ctx : Type} (act : Action Ctx) (ctx : Ctx) :
    ((executeAction act ctx).1 ≠ none ↔ (act.Apply ctx).1.failed = true) := by
  unfold executeAction
  cases h : act.Apply ctx with
  | mk o c =>
    cases o with
    | returned e => cases e <;> simp [Outcome.failed]
    | panicked v st => simp [Outcome.failed]

theorem applyAction_spec {Ctx : Type} (act : Action Ctx) (st : ApplyState Ctx) :
    ((applyAction act st).2.foundErrors = true ↔
        (st.foundErrors = true ∨ (act.Apply st.context).1.failed = true)) ∧
      (FailedIn (applyAction act st).2.events ↔
        (FailedIn st.events ∨ (act.Apply st.context).1.failed = true)) := by
  have hx := executeAction_fst act st.context
  unfold applyAction
  cases he : executeAction act st.context with
  | mk e c =>
    rw [he] at hx
    cases e with
    | some err =>
      have hf : (act.Apply st.context).1.failed = true := hx.mp (by simp)
      refine ⟨by simp [hf], ?_⟩
      simp only [hf, or_true, iff_true]
      exact ⟨act.name, _, by simp, hf⟩
    | none =>
      have hf : ¬ (act.Apply st.context).1.failed = true := fun h => (hx.mpr h) rfl
      refine ⟨by simp [hf], ?_⟩
      constructor
      · rintro ⟨a, o, hm, ho⟩
        simp only [List.mem_append, List.mem_cons, List.mem_singleton, List.not_mem_nil,
          or_false] at hm
        rcases hm with hm | hm | hm
        · exact Or.inl ⟨a, o, hm, ho⟩
        · cases hm
        · simp only [Event.executed.injEq] at hm
          rw [hm.2] at ho
          exact absurd ho hf
      · rintro (⟨a, o, hm, ho⟩ | h)
        · exact ⟨a, o, by simp [hm], ho⟩
        · exact absurd h hf

theorem planApply_spec {Ctx : Type} (plan : Plan Ctx) :
    ∀ st : ApplyState Ctx, (st.foundErrors = true ↔ FailedIn st.events) →
      ((plan.Apply (WrapSequential applyAction) st).2.foundErrors = true ↔
        FailedIn (plan.Apply (WrapSequential applyAction) st).2.events) := by
  induction plan with
  | finished result => intro st h; exact h
  | hand act next ih =>
    intro st h
    simp only [Plan.Apply]
    apply ih
    obtain ⟨h1, h2⟩ := applyAction_spec act st
    simp only [WrapSequential]
    rw [h1, h2, h]

/-- C6: for every action plan, `EngineApply.Apply` returns a non-nil error if and only
if executing at least one of the actions the plan handed to the callback failed
(returned an error or panicked); when no executed action failed the returned error is
nil. -/
theorem engineApply_error_iff {Ctx : Type} (apply : EngineApply Ctx) :
    (apply.Apply.err ≠ none ↔ FailedIn apply.Apply.events) ∧
      ((∀ a o, Event.executed a o ∈ apply.Apply.events → o.failed = false) →
        apply.Apply.err = none) := by
  have hmain : apply.Apply.err ≠ none ↔ FailedIn apply.Apply.events := by
    have h := planApply_spec apply.actionPlan
      { context := apply.context,
        events := [Event.setTotal (apply.actionPlan.Apply Noop ()).1.Success],
        foundErrors := false }
      (by
        simp only [Bool.false_eq_true, false_iff]
        rintro ⟨a, o, hm, _⟩
        simp at hm)
    unfold EngineApply.Apply
    simp only
    split
    · rename_i hf
      simp only [ne_eq, not_false_eq_true, true_iff, reduceCtorEq]
      obtain ⟨a, o, hm, ho⟩ := h.mp hf
      exact ⟨a, o, by simp [hm], ho⟩
    · rename_i hf
      simp only [ne_eq, not_true_eq_false, false_iff]
      rintro ⟨a, o, hm, ho⟩
      apply hf
      apply h.mpr
      simp only [List.mem_append, List.mem_singleton, reduceCtorEq, or_false] at hm
      exact ⟨a, o, hm, ho⟩
  refine ⟨hmain, ?_⟩
  intro hall
  by_contra hne
  obtain ⟨a, o, hm, ho⟩ := hmain.mp hne
  rw [hall a o hm] at ho
  simp at ho

theorem planApply_foundErrors {Ctx : Type} (plan : Plan Ctx) :
    ∀ st : ApplyState Ctx, st.foundErrors = true →
      (plan.Apply (WrapSequential applyAction) st).2.foundErrors = true := by
  induction plan with
  | finished result => intro st h; exact h
  | hand act next ih =>
    intro st h
    simp only [Plan.Apply]
    apply ih
    simp only [WrapSequential]
    exact (applyAction_spec act st).1.mpr (Or.inl h)

theorem engineApply_err_of_foundErrors {Ctx : Type} (apply : EngineApply Ctx)
    (h : (apply.actionPlan.Apply (WrapSequential applyAction)
      { context := apply.context,
        events := [Event.setTotal (apply.actionPlan.Apply Noop ()).1.Success],
        foundErrors := false }).2.foundErrors = true) :
    apply.Apply.err ≠ none := by
  unfold EngineApply.Apply
  simp only [h, if_true]
  simp

/-- C7: `executeAction` never propagates a panic. If the action's `Apply` panics,
`executeAction` returns the error `panic: <value>\n<stack>`, which starts with
`panic: ` and ends with the stack trace, the callback of `Apply` returns an error
and sets `foundErrors`, and `Apply` on a plan that hands out the action returns an
error; if the action's `Apply` returns, `executeAction` returns exactly what it
returned. -/
theorem executeAction_recovers {Ctx : Type} (act : Action Ctx) (ctx : Ctx) :
    (∀ value stack ctx1, act.Apply ctx = (Outcome.panicked value stack, ctx1) →
      executeAction act ctx = (some (panicError value stack), ctx1) ∧
      (∃ rest, panicError value stack = "panic: " ++ rest) ∧
      (∃ front, panicError value stack = front ++ stack) ∧
      (∀ st : ApplyState Ctx, st.context = ctx →
        (applyAction act st).1 ≠ none ∧ (applyAction act st).2.foundErrors = true) ∧
      ∀ next, (EngineApply.Apply { context := ctx, actionPlan := Plan.hand act next }).err
        ≠ none) ∧
    (∀ err ctx1, act.Apply ctx = (Outcome.returned err, ctx1) →
      executeAction act ctx = (err, ctx1)) := by
  constructor
  · intro value stack ctx1 h
    have hx : executeAction act ctx = (some (panicError value stack), ctx1) := by
      simp [executeAction, h]
    have hst : ∀ st : ApplyState Ctx, st.context = ctx →
        (applyAction act st).1 ≠ none ∧ (applyAction act st).2.foundErrors = true := by
      intro st hc
      subst hc
      simp [applyAction, hx]
    refine ⟨hx, ⟨value ++ "\n" ++ stack, ?_⟩, ⟨"panic: " ++ value ++ "\n", rfl⟩, hst, ?_⟩
    · simp [panicError, String.append_assoc]
    · intro next
      apply engineApply_err_of_foundErrors
      simp only [Plan.Apply]
      apply planApply_foundErrors
      simp only [WrapSequential]
      exact (hst _ rfl).2
  · intro err ctx1 h
    simp [executeAction, h]

theorem executeAction_recovers_witness :
    executeAction (panickingAction "boom" "goroutine 1 [running]") () =
        (some "panic: boom\ngoroutine 1 [running]", ()) ∧
      panickingEngine.Apply.err ≠ none :=
  ⟨((executeAction_recovers (panickingAction "boom" "goroutine 1 [running]") ()).1
      "boom" "goroutine 1 [running]" () rfl).1,
    ((executeAction_recovers (panickingAction "boom" "goroutine 1 [running]") ()).1
      "boom" "goroutine 1 [running]" () rfl).2.2.2.2 _⟩

/-! ## `pkg/slinga/language/dependency.go` -/

theorem utf8ByteSize_go_pos (c : Char) (cs : List Char) :
    0 < String.utf8ByteSize.go (c :: cs) := by
  simp only [String.utf8ByteSize.go]
  have := Char.utf8Size_pos c
  omega

theorem utf8ByteSize_pos {s : String} (h : s ≠ "") : 0 < s.utf8ByteSize := by
  obtain ⟨l⟩ := s
  cases l with
  | nil => exact absurd rfl h
  | cons c cs => exact utf8ByteSize_go_pos c cs

/-- C8: `Dependency.UnmarshalYAML` sets `Enabled` to true before unmarshalling. For every
unmarshal function that succeeds on the zero-valued dependency with `Enabled = true`,
no error is returned and the dependency is what the function produced from it, whatever
the receiver held; so a document that does not mention `Enabled` yields `Enabled = true`
and a document that sets it to false yields false. -/
theorem unmarshalYAML_enabled :
    (∀ (dependency : Dependency) (unmarshal : Dependency → Except String Dependency)
        (inst : Dependency),
      unmarshal { Dependency.zero with Enabled := true } = .ok inst →
        dependency.UnmarshalYAML unmarshal = (none, inst)) ∧
    (∀ (dependency : Dependency) (doc : DependencyDocument), doc.Enabled = none →
      (dependency.UnmarshalYAML doc.unmarshal).1 = none ∧
        (dependency.UnmarshalYAML doc.unmarshal).2.Enabled = true) ∧
    (∀ (dependency : Dependency) (doc : DependencyDocument), doc.Enabled = some false →
      (dependency.UnmarshalYAML doc.unmarshal).1 = none ∧
        (dependency.UnmarshalYAML doc.unmarshal).2.Enabled = false) := by
  refine ⟨?_, ?_, ?_⟩
  · intro dependency unmarshal inst h
    simp [Dependency.UnmarshalYAML, h]
  · intro dependency doc h
    simp [Dependency.UnmarshalYAML, DependencyDocument.unmarshal, h]
  · intro dependency doc h
    simp [Dependency.UnmarshalYAML, DependencyDocument.unmarshal, h]

theorem unmarshalYAML_enabled_witness :
    (Dependency.zero.UnmarshalYAML aliceDocument.unmarshal).2.Enabled = true ∧
      (Dependency.zero.UnmarshalYAML disabledDocument.unmarshal).2.Enabled = false ∧
      Dependency.zero.UnmarshalYAML aliceDocument.unmarshal =
        (none, { Dependency.zero with Enabled := true, UserID := "alice", Service := "kafka" }) :=
  ⟨(unmarshalYAML_enabled.2.1 Dependency.zero aliceDocument rfl).2,
    (unmarshalYAML_enabled.2.2 Dependency.zero disabledDocument rfl).2,
    unmarshalYAML_enabled.1 Dependency.zero aliceDocument.unmarshal _ rfl⟩

/-- C9: for every `GlobalDependencies` and every dependency with a non-empty ID,
`AddDependency` returns normally and afterwards `DependenciesByID` holds the dependency
under its ID, `DependenciesByService` holds under the dependency's service the previous
list with the dependency appended as last element, and the entries of both maps for
every other ID and every other service are unchanged. -/
theorem addDependency_effect (src : GlobalDependencies) (dependency : Dependency)
    (id : String) (hid : dependency.GetID = .ok id) (hne : id ≠ "") :
    ∃ src1, src.AddDependency dependency = .ok src1 ∧
      src1.DependenciesByID.get id = some dependency ∧
      src1.DependenciesByService.get dependency.Service =
        some ((src.DependenciesByService.get dependency.Service).getD [] ++ [dependency]) ∧
      (∀ k, k ≠ id → src1.DependenciesByID.get k = src.DependenciesByID.get k) ∧
      (∀ k, k ≠ dependency.Service →
        src1.DependenciesByService.get k = src.DependenciesByService.get k) := by
  have hpos := utf8ByteSize_pos hne
  have hnot : ¬ id.utf8ByteSize ≤ 0 := by omega
  have hcall : src.AddDependency dependency = .ok
      { DependenciesByService :=
          src.DependenciesByService.set dependency.Service
            ((src.DependenciesByService.get dependency.Service).getD [] ++ [dependency]),
        DependenciesByID := src.DependenciesByID.set id dependency } := by
    simp only [GlobalDependencies.AddDependency, hid, hnot, if_false]
  refine ⟨_, hcall, ?_, ?_, ?_, ?_⟩
  · simp [GoMap.get_set]
  · simp [GoMap.get_set]
  · intro k hk; exact GoMap.get_set_of_ne hk
  · intro k hk; exact GoMap.get_set_of_ne hk

theorem addDependency_effect_witness :
    aliceDependency.GetID = .ok "dep1" ∧ "dep1" ≠ "" ∧
    ∃ src1, NewGlobalDependencies.AddDependency aliceDependency = .ok src1 ∧
      src1.DependenciesByID.get "dep1" = some aliceDependency ∧
      src1.DependenciesByService.get "kafka" = some [aliceDependency] := by
  refine ⟨rfl, by decide, ?_⟩
  obtain ⟨src1, h1, h2, h3, _⟩ :=
    addDependency_effect NewGlobalDependencies aliceDependency "dep1" rfl (by decide)
  exact ⟨src1, h1, h2, h3⟩

/-! ## The message of the cycle error -/

theorem mentions_errCycle_component (serviceName vName : String) :
    Mentions (errCycle serviceName vName) vName := by
  unfold Mentions errCycle
  refine ⟨("component cycle detected while processing service '" ++ serviceName ++
    "' component '").data, "'".data, ?_⟩
  simp [String.data_append]

theorem mentions_errCycle_service (serviceName vName : String) :
    Mentions (errCycle serviceName vName) serviceName := by
  unfold Mentions errCycle
  refine ⟨"component cycle detected while processing service '".data,
    ("' component '" ++ vName ++ "'").data, ?_⟩
  simp [String.data_append]

theorem mem_of_mentions {msg name : String} (h : Mentions msg name) {c : Char}
    (hc : c ∈ name.data) : c ∈ msg.data :=
  (List.IsInfix.subset h) hc

/-- C11 as stated fails: for the service with the components `a → b` and `b → a` the
cycle error mentions `a`, the name whose second visit revealed the cycle, and does not
mention `b`. -/
theorem cycle_error_names_one_component :
    ∃ msg s', (Service.new "service" [] twoCycleComponents).GetComponentsSortedTopologically
        = some (([], some msg), s') ∧
      Mentions msg "a" ∧ ¬ Mentions msg "b" := by
  refine ⟨errCycle "service" "a", _, rfl, mentions_errCycle_component _ _, ?_⟩
  intro h
  have hb : 'b' ∈ (errCycle "service" "a").data := mem_of_mentions h (by decide)
  revert hb
  decide

/-! ## `ReadConfig` without a config file -/

theorem isConfigExistsFrom_false {Cfg : Type} (env : ConfigEnv Cfg) (configDir : String) :
    ∀ exts : List String,
      (∀ t ∈ exts, env.stat (env.join configDir ("config." ++ t)) ≠ StatResult.file ∧
        env.stat (env.join configDir ("config." ++ t)) ≠ StatResult.dir) →
      isConfigExistsFrom env configDir exts = false := by
  intro exts
  induction exts with
  | nil => intro _; rfl
  | cons t rest ih =>
    intro h
    have ht := h t (List.mem_cons_self _ _)
    simp only [isConfigExistsFrom]
    split
    · rename_i e; exact absurd e ht.1
    · rename_i e; exact absurd e ht.2
    · exact ih (fun x hx => h x (List.mem_cons_of_mem _ hx))

/-- Without a `--config` path and without a `config.<ext>` in the default directory,
`ReadConfig` makes no call to read or unmarshal a config, and returns an error. -/
theorem readConfig_no_default {Cfg : Type} (env : ConfigEnv Cfg) (viper : Viper) (cfg : Cfg)
    (defaultConfigDir : String) (hflag : viper.config = "")
    (hnone : isConfigExists env defaultConfigDir = false) :
    (ReadConfig env viper cfg defaultConfigDir).calls = [] ∧
      (ReadConfig env viper cfg defaultConfigDir).err =
        some ("can't find config file in default config dir: " ++ defaultConfigDir) := by
  simp [ReadConfig, locateConfig, hflag, hnone]

/-- C12 at a concrete input: no `--config` flag, default directory `/etc/aptomi` without
any `config.<ext>`. `ReadConfig` reads and unmarshals nothing, but it returns the error
`can't find config file in default config dir: /etc/aptomi` instead of the nil error. -/
theorem readConfig_missing_default_fails :
    isConfigExists emptyDirEnv "/etc/aptomi" = false ∧
      (ReadConfig emptyDirEnv noConfigFlag () "/etc/aptomi").calls = [] ∧
      (ReadConfig emptyDirEnv noConfigFlag () "/etc/aptomi").err =
        some "can't find config file in default config dir: /etc/aptomi" ∧
      (ReadConfig emptyDirEnv noConfigFlag () "/etc/aptomi").err ≠ none := by
  have h0 : isConfigExists emptyDirEnv "/etc/aptomi" = false := by
    apply isConfigExistsFrom_false
    intro t _
    simp [emptyDirEnv]
  obtain ⟨h1, h2⟩ := readConfig_no_default emptyDirEnv noConfigFlag () "/etc/aptomi" rfl h0
  refine ⟨h0, h1, ?_, ?_⟩
  · rw [h2]; rfl
  · rw [h2]; simp

/-! ## The mandatory `manifest` parameter -/

theorem manifestParam_none {params : NestedParameterMap}
    (h : ∀ s, params.get "manifest" ≠ some (ParamValue.str s)) :
    manifestParam params = none := by
  unfold manifestParam
  split
  · rename_i s hs; exact absurd hs (h s)
  · rfl

/-- C13: `manifest` is a mandatory parameter. For every params map in which `manifest`
is absent or is not a string, and whatever `init`, client creation and the other calls
yield, `Create`, `Update` and `Destroy` each return an error and make no mutating call
(no `client.Create`, `client.Update`, `client.Delete`, `storeManifest`,
`deleteManifest`). -/
theorem manifest_mandatory (p : Plugin) (deployName : String) (params : NestedParameterMap)
    (h : ∀ s, params.get "manifest" ≠ some (ParamValue.str s)) :
    ((p.Create deployName params).err ≠ none ∧
        ∀ c ∈ (p.Create deployName params).calls, c.mutating = false) ∧
      ((p.Update deployName params).err ≠ none ∧
        ∀ c ∈ (p.Update deployName params).calls, c.mutating = false) ∧
      ((p.Destroy deployName params).err ≠ none ∧
        ∀ c ∈ (p.Destroy deployName params).calls, c.mutating = false) := by
  have hm := manifestParam_none h
  refine ⟨?_, ?_, ?_⟩
  · unfold Plugin.Create
    rw [hm]
    cases p.init with
    | some e => simp [KubeCall.mutating]
    | none =>
      cases p.newClient with
      | some e => simp [KubeCall.mutating]
      | none => simp [KubeCall.mutating]
  · unfold Plugin.Update
    rw [hm]
    cases p.init with
    | some e => simp [KubeCall.mutating]
    | none =>
      cases p.newClient with
      | some e => simp [KubeCall.mutating]
      | none =>
        cases p.loadManifest deployName with
        | error e => simp [KubeCall.mutating]
        | ok m => simp [KubeCall.mutating]
  · unfold Plugin.Destroy
    rw [hm]
    cases p.init with
    | some e => simp [KubeCall.mutating]
    | none =>
      cases p.newClient with
      | some e => simp [KubeCall.mutating]
      | none => simp [KubeCall.mutating]

theorem manifest_mandatory_witness :
    (healthyPlugin.Create "instance" nonStringManifest).err
        = some "manifest is a mandatory parameter" ∧
      (healthyPlugin.Update "instance" []).err ≠ none ∧
      (healthyPlugin.Destroy "instance" []).calls = [KubeCall.init, KubeCall.newClient] ∧
      ((healthyPlugin.Create "instance" nonStringManifest).err ≠ none ∧
        ∀ c ∈ (healthyPlugin.Create "instance" nonStringManifest).calls,
          c.mutating = false) :=
  ⟨rfl, (manifest_mandatory healthyPlugin "instance" [] (by intro s; simp [GoMap.get])).2.1.1,
    rfl,
    (manifest_mandatory healthyPlugin "instance" nonStringManifest
      (by intro s; simp [nonStringManifest, GoMap.get])).1⟩

/-! ## `Resources` and the kinds without a handler -/

/-- C16 at a concrete input: the manifest describes a service, a config map, a secret, a
persistent volume claim, a stateful set and a job, all retrieved successfully.
`Resources` returns the table of services only, with the one row of the service: the
objects of the other kinds contribute no row and no table, because no handler is
registered for their resource types and the loop passes them over before it reaches
their branches. -/
theorem resources_skips_kinds_without_handler :
    manifestPlugin.Resources manifestParams =
        .ok [("k8s/v1/Service",
          { Headers := serviceResourceHeaders,
            Items := [["default", "web", "ClusterIP", "80/TCP(http)", "2018-01-01"]] })] ∧
      (∀ resources, manifestPlugin.Resources manifestParams = .ok resources →
        resources.get "k8s/v1/ConfigMap" = none ∧ resources.get "k8s/v1/Secret" = none ∧
        resources.get "k8s/v1/PersistentVolumeClaim" = none ∧
        resources.get "k8s/v1beta1/StatefulSet" = none ∧
        resources.get "k8s/v1/Job" = none) := by
  have h : manifestPlugin.Resources manifestParams =
      .ok [("k8s/v1/Service",
        { Headers := serviceResourceHeaders,
          Items := [["default", "web", "ClusterIP", "80/TCP(http)", "2018-01-01"]] })] := by
    rfl
  refine ⟨h, ?_⟩
  intro resources hr
  rw [h] at hr
  cases hr
  exact ⟨rfl, rfl, rfl, rfl, rfl⟩

/-! ## `AddDependency` and the empty ID -/

theorem addDependencyInPlace_eq (src : GlobalDependencies) (dependency : Dependency) :
    src.AddDependency dependency =
      match src.AddDependencyInPlace dependency with
      | (some p, _) => .error p
      | (none, src1) => .ok src1 := by
  unfold GlobalDependencies.AddDependency GlobalDependencies.AddDependencyInPlace
  cases h : dependency.GetID with
  | error p => rfl
  | ok id =>
    simp only
    split <;> rfl

/-- C14: `AddDependency` rejects a dependency whose ID is empty. For every dependency
whose `GetID` returns a string of length 0 the call panics with `Empty dependency ID`,
and `DependenciesByService` and `DependenciesByID` are after the call what they were
before it. -/
theorem addDependency_empty_id (src : GlobalDependencies) (dependency : Dependency)
    (id : String) (hid : dependency.GetID = .ok id) (hlen : id.utf8ByteSize = 0) :
    src.AddDependencyInPlace dependency = (some "Empty dependency ID", src) ∧
      src.AddDependency dependency = .error "Empty dependency ID" := by
  have hle : id.utf8ByteSize ≤ 0 := by omega
  constructor
  · simp only [GlobalDependencies.AddDependencyInPlace, hid, hle, if_true]
  · simp only [GlobalDependencies.AddDependency, hid, hle, if_true]

theorem addDependency_empty_id_witness :
    namelessDependency.GetID = .ok "" ∧
      NewGlobalDependencies.AddDependencyInPlace namelessDependency =
        (some "Empty dependency ID", NewGlobalDependencies) ∧
      NewGlobalDependencies.AddDependency namelessDependency = .error "Empty dependency ID" :=
  ⟨rfl, addDependency_empty_id NewGlobalDependencies namelessDependency "" rfl rfl⟩

/-! ## The progress indicator -/

theorem advanceBeforeEach_append_aux (b : List Event) :
    ∀ (n : Nat) (a : List Event), a.length ≤ n → advanceBeforeEach a = true →
      advanceBeforeEach (a ++ b) = advanceBeforeEach b := by
  intro n
  induction n with
  | zero =>
    intro a hl _
    have : a = [] := List.length_eq_zero.mp (by omega)
    subst this
    rfl
  | succ n ih =>
    intro a hl h
    cases a with
    | nil => rfl
    | cons e rest =>
      have hr : rest.length ≤ n := by simp at hl; omega
      cases e with
      | advance =>
        cases rest with
        | nil => simp [advanceBeforeEach] at h
        | cons e2 rest2 =>
          have hr2 : rest2.length ≤ n := by simp at hr; omega
          cases e2 <;> simp only [advanceBeforeEach, Bool.false_eq_true] at h
          simp only [List.cons_append, advanceBeforeEach]
          exact ih rest2 hr2 h
      | executed a o => simp [advanceBeforeEach] at h
      | setTotal t =>
        simp only [advanceBeforeEach] at h
        simp only [List.cons_append, advanceBeforeEach]
        exact ih rest hr h
      | done d =>
        simp only [advanceBeforeEach] at h
        simp only [List.cons_append, advanceBeforeEach]
        exact ih rest hr h
      | logError m =>
        simp only [advanceBeforeEach] at h
        simp only [List.cons_append, advanceBeforeEach]
        exact ih rest hr h

theorem advanceBeforeEach_append (a b : List Event) (h : advanceBeforeEach a = true) :
    advanceBeforeEach (a ++ b) = advanceBeforeEach b :=
  advanceBeforeEach_append_aux b a.length a (le_refl _) h

theorem applyAction_progress {Ctx : Type} (act : Action Ctx) (st : ApplyState Ctx)
    (h : advanceBeforeEach st.events = true ∧
      st.events.countP Event.isAdvance = st.events.countP Event.isExecuted ∧
      st.events.countP Event.isDone = 0) :
    advanceBeforeEach (applyAction act st).2.events = true ∧
      (applyAction act st).2.events.countP Event.isAdvance =
        (applyAction act st).2.events.countP Event.isExecuted ∧
      (applyAction act st).2.events.countP Event.isDone = 0 := by
  obtain ⟨h1, h2, h3⟩ := h
  unfold applyAction
  cases he : executeAction act st.context with
  | mk e c =>
    cases e with
    | some err =>
      simp only [List.append_assoc, List.cons_append, List.nil_append]
      refine ⟨?_, ?_, ?_⟩
      · rw [advanceBeforeEach_append _ _ h1]; rfl
      · simp [List.countP_append, List.countP_cons, Event.isAdvance, Event.isExecuted, h2]
      · simp [List.countP_append, List.countP_cons, Event.isDone, h3]
    | none =>
      simp only
      refine ⟨?_, ?_, ?_⟩
      · rw [advanceBeforeEach_append _ _ h1]; rfl
      · simp [List.countP_append, List.countP_cons, Event.isAdvance, Event.isExecuted, h2]
      · simp [List.countP_append, List.countP_cons, Event.isDone, h3]

theorem planApply_progress {Ctx : Type} (plan : Plan Ctx) :
    ∀ st : ApplyState Ctx,
      (advanceBeforeEach st.events = true ∧
        st.events.countP Event.isAdvance = st.events.countP Event.isExecuted ∧
        st.events.countP Event.isDone = 0) →
      advanceBeforeEach (plan.Apply (WrapSequential applyAction) st).2.events = true ∧
        (plan.Apply (WrapSequential applyAction) st).2.events.countP Event.isAdvance =
          (plan.Apply (WrapSequential applyAction) st).2.events.countP Event.isExecuted ∧
        (plan.Apply (WrapSequential applyAction) st).2.events.countP Event.isDone = 0 := by
  induction plan with
  | finished result => intro st h; exact h
  | hand act next ih =>
    intro st h
    simp only [Plan.Apply]
    apply ih
    simp only [WrapSequential]
    exact applyAction_progress act st h

theorem failedIn_append_iff (ev extra : List Event)
    (h : ∀ e ∈ extra, Event.isExecuted e = false) :
    FailedIn (ev ++ extra) ↔ FailedIn ev := by
  constructor
  · rintro ⟨a, o, hm, ho⟩
    rcases List.mem_append.mp hm with hm | hm
    · exact ⟨a, o, hm, ho⟩
    · have := h _ hm
      simp [Event.isExecuted] at this
  · rintro ⟨a, o, hm, ho⟩
    exact ⟨a, o, List.mem_append_left _ hm, ho⟩

/-- Among the events of `EngineApply.Apply`, calls of `Advance` and executions come in
pairs, so there are as many of the one as of the other (failed executions included).
`Done` is called once, with `true` exactly when no executed action failed. -/
theorem engineApply_progress_pairs {Ctx : Type} (apply : EngineApply Ctx) :
    advanceBeforeEach apply.Apply.events = true ∧
      apply.Apply.events.countP Event.isAdvance =
        apply.Apply.events.countP Event.isExecuted ∧
      apply.Apply.events.countP Event.isDone = 1 ∧
      (Event.done true ∈ apply.Apply.events ↔ ¬ FailedIn apply.Apply.events) ∧
      (Event.done false ∈ apply.Apply.events ↔ FailedIn apply.Apply.events) := by
  have hspec := planApply_spec apply.actionPlan
    { context := apply.context,
      events := [Event.setTotal (apply.actionPlan.Apply Noop ()).1.Success],
      foundErrors := false }
    (by
      simp only [Bool.false_eq_true, false_iff]
      rintro ⟨a, o, hm, _⟩
      simp at hm)
  obtain ⟨h1, h2, h3⟩ := planApply_progress apply.actionPlan
    { context := apply.context,
      events := [Event.setTotal (apply.actionPlan.Apply Noop ()).1.Success],
      foundErrors := false }
    ⟨rfl, by simp [Event.isAdvance, Event.isExecuted], by simp [Event.isDone]⟩
  have hnodone : ∀ b, Event.done b ∉ (apply.actionPlan.Apply (WrapSequential applyAction)
      { context := apply.context,
        events := [Event.setTotal (apply.actionPlan.Apply Noop ()).1.Success],
        foundErrors := false }).2.events := by
    intro b hb
    have := List.countP_eq_zero.mp h3 _ hb
    simp [Event.isDone] at this
  unfold EngineApply.Apply
  simp only
  split
  · rename_i hf
    have hfail := hspec.mp hf
    have hiff := failedIn_append_iff
      (apply.actionPlan.Apply (WrapSequential applyAction)
        { context := apply.context,
          events := [Event.setTotal (apply.actionPlan.Apply Noop ()).1.Success],
          foundErrors := false }).2.events
      ([Event.done (!true)] ++
        [Event.logError "one or more errors occurred while running actions"])
      (by intro e he; simp at he; rcases he with rfl | rfl <;> rfl)
    simp only [hf, List.append_assoc] at hiff ⊢
    refine ⟨?_, ?_, ?_, ?_, ?_⟩
    · rw [advanceBeforeEach_append _ _ h1]; rfl
    · simp [List.countP_append, List.countP_cons, Event.isAdvance, Event.isExecuted, h2]
    · simp [List.countP_append, List.countP_cons, Event.isDone, h3]
    · rw [hiff]
      constructor
      · intro hm
        rcases List.mem_append.mp hm with hm | hm
        · exact absurd hm (hnodone true)
        · simp at hm
      · intro hn; exact absurd hfail hn
    · rw [hiff]
      constructor
      · intro _; exact hfail
      · intro _; simp
  · rename_i hf
    have hfail : ¬ FailedIn _ := fun h => hf (hspec.mpr h)
    have hf2 : (apply.actionPlan.Apply (WrapSequential applyAction)
        { context := apply.context,
          events := [Event.setTotal (apply.actionPlan.Apply Noop ()).1.Success],
          foundErrors := false }).2.foundErrors = false := by simpa using hf
    have hiff := failedIn_append_iff
      (apply.actionPlan.Apply (WrapSequential applyAction)
        { context := apply.context,
          events := [Event.setTotal (apply.actionPlan.Apply Noop ()).1.Success],
          foundErrors := false }).2.events
      [Event.done (!false)]
      (by intro e he; simp at he; subst he; rfl)
    simp only [hf2] at hiff ⊢
    refine ⟨?_, ?_, ?_, ?_, ?_⟩
    · rw [advanceBeforeEach_append _ _ h1]; rfl
    · simp [List.countP_append, List.countP_cons, Event.isAdvance, Event.isExecuted, h2]
    · simp [List.countP_append, List.countP_cons, Event.isDone, h3]
    · rw [hiff]
      constructor
      · intro _; exact hfail
      · intro _; simp
    · rw [hiff]
      constructor
      · intro hm
        rcases List.mem_append.mp hm with hm | hm
        · exact absurd hm (hnodone false)
        · simp at hm
      · intro h; exact absurd h hfail

theorem threeStepEngine_events :
    threeStepEngine.Apply.events =
      [Event.setTotal 3,
        Event.advance, Event.executed "create a" (Outcome.returned (some "timeout")),
        Event.logError "error while applying action 'create a': timeout",
        Event.advance, Event.executed "create c" (Outcome.returned none),
        Event.done false,
        Event.logError "one or more errors occurred while running actions"] := by
  rfl

/-! ## Termination of `dfsComponentSort` -/

namespace GoMap

theorem mem_erase {β : Type} {m : GoMap β} {k : String} {p : String × β}
    (h : p ∈ m.erase k) : p ∈ m ∧ p.1 ≠ k := by
  induction m with
  | nil => simp [erase] at h
  | cons q m ih =>
    obtain ⟨a, b⟩ := q
    by_cases e : a = k
    · simp only [erase, e, if_true] at h
      exact ⟨List.mem_cons_of_mem _ (ih h).1, (ih h).2⟩
    · simp only [erase, e, if_false] at h
      rcases List.mem_cons.mp h with h1 | h1
      · subst h1; exact ⟨List.mem_cons_self _ _, e⟩
      · exact ⟨List.mem_cons_of_mem _ (ih h1).1, (ih h1).2⟩

theorem erase_keys_sublist {β : Type} (m : GoMap β) (k : String) :
    ((m.erase k).map Prod.fst).Sublist (m.map Prod.fst) := by
  induction m with
  | nil => simp [erase]
  | cons q m ih =>
    obtain ⟨a, b⟩ := q
    by_cases e : a = k
    · simp only [erase, e, if_true, List.map_cons]
      exact List.Sublist.cons _ ih
    · simp only [erase, e, if_false, List.map_cons]
      exact List.Sublist.cons₂ _ ih

theorem set_keys_nodup {β : Type} {m : GoMap β} (h : (m.map Prod.fst).Nodup) (k : String)
    (v : β) : ((m.set k v).map Prod.fst).Nodup := by
  simp only [set, List.map_cons, List.nodup_cons]
  refine ⟨?_, h.sublist (erase_keys_sublist m k)⟩
  intro hk
  obtain ⟨p, hp, hpk⟩ := List.mem_map.mp hk
  exact (mem_erase hp).2 hpk

theorem set_keys_subset {β : Type} {m : GoMap β} {k : String} {v : β} {x : String}
    (h : x ∈ (m.set k v).map Prod.fst) : x = k ∨ x ∈ m.map Prod.fst := by
  simp only [set, List.map_cons, List.mem_cons] at h
  rcases h with h | h
  · exact Or.inl h
  · right
    obtain ⟨p, hp, hpk⟩ := List.mem_map.mp h
    exact List.mem_map.mpr ⟨p, (mem_erase hp).1, hpk⟩

end GoMap

theorem foldl_set_keys (cs : List ServiceComponent) :
    ∀ acc : GoMap ServiceComponent, (acc.map Prod.fst).Nodup →
      ((cs.foldl (fun m c => m.set c.Name c) acc).map Prod.fst).Nodup ∧
        ∀ x ∈ (cs.foldl (fun m c => m.set c.Name c) acc).map Prod.fst,
          x ∈ cs.map (fun c => c.Name) ∨ x ∈ acc.map Prod.fst := by
  induction cs with
  | nil => intro acc h; exact ⟨h, fun x hx => Or.inr hx⟩
  | cons c rest ih =>
    intro acc h
    simp only [List.foldl_cons]
    obtain ⟨h1, h2⟩ := ih (acc.set c.Name c) (GoMap.set_keys_nodup h _ _)
    refine ⟨h1, ?_⟩
    intro x hx
    rcases h2 x hx with h3 | h3
    · left; simp only [List.map_cons, List.mem_cons]; exact Or.inr h3
    · rcases GoMap.set_keys_subset h3 with h4 | h4
      · left; simp [h4]
      · exact Or.inr h4

theorem buildComponentsMap_length_le (cs : List ServiceComponent) :
    (buildComponentsMap cs).length ≤ distinctNames cs := by
  obtain ⟨h1, h2⟩ := foldl_set_keys cs GoMap.empty (by simp [GoMap.empty])
  have hsub : ((buildComponentsMap cs).map Prod.fst).toFinset ⊆
      (cs.map (fun c => c.Name)).toFinset := by
    intro x hx
    rw [List.mem_toFinset] at hx ⊢
    rcases h2 x hx with h3 | h3
    · exact h3
    · simp [GoMap.empty] at h3
  have hcard := Finset.card_le_card hsub
  have h1' : ((buildComponentsMap cs).map Prod.fst).Nodup := h1
  rw [List.toFinset_card_of_nodup h1', List.card_toFinset] at hcard
  simpa [distinctNames] using hcard

theorem dfsDependencies_congr
    {visit visit' : ServiceComponent → SortState → Option (Option String × SortState)}
    (h : ∀ v st, st.colors.get v.Name = none → visit v st = visit' v st) :
    ∀ deps st, dfsDependencies visit deps st = dfsDependencies visit' deps st := by
  intro deps
  induction deps with
  | nil => intro st; rfl
  | cons d rest ih =>
    intro st
    simp only [dfsDependencies]
    split
    · rfl
    · rename_i v _
      split
      · rename_i hc
        have hv := h v { st with service := st.service.GetComponentsMap.2 } hc
        rw [hv]
        split
        · rfl
        · rfl
        · exact ih _
      · split
        · rfl
        · exact ih _

theorem dfsDependencies_mono
    {visit visit' : ServiceComponent → SortState → Option (Option String × SortState)}
    (h : ∀ v st r, visit v st = some r → visit' v st = some r) :
    ∀ deps st r, dfsDependencies visit deps st = some r →
      dfsDependencies visit' deps st = some r := by
  intro deps
  induction deps with
  | nil => intro st r hr; exact hr
  | cons d rest ih =>
    intro st r hr
    simp only [dfsDependencies] at hr ⊢
    split
    · rename_i hget; simp only [hget] at hr; exact hr
    · rename_i v hget
      simp only [hget] at hr
      split
      · rename_i hc
        simp only [hc] at hr
        cases hv : visit v { st with service := st.service.GetComponentsMap.2 } with
        | none => rw [hv] at hr; simp at hr
        | some rv =>
          rw [h v _ rv hv]
          rw [hv] at hr
          obtain ⟨e, st2⟩ := rv
          cases e with
          | some err => exact hr
          | none => exact ih st2 r hr
      · rename_i vColor hc
        simp only [hc] at hr
        split
        · rename_i h1; simp only [h1, if_true] at hr; exact hr
        · rename_i h1; simp only [h1, if_false] at hr; exact ih _ r hr

theorem dfsComponentSort_succ :
    ∀ fuel u st r, dfsComponentSort fuel u st = some r →
      dfsComponentSort (fuel + 1) u st = some r := by
  intro fuel
  induction fuel with
  | zero => intro u st r h; simp [dfsComponentSort] at h
  | succ n ih =>
    intro u st r h
    rw [dfsComponentSort] at h ⊢
    cases hl : dfsDependencies (dfsComponentSort n) u.Dependencies
        { st with colors := st.colors.set u.Name 1 } with
    | none => rw [hl] at h; simp at h
    | some rl =>
      rw [dfsDependencies_mono ih _ _ rl hl]
      rw [hl] at h
      exact h

theorem dfsComponentSort_mono {fuel fuel' : Nat} (hle : fuel ≤ fuel') (u : ServiceComponent)
    (st : SortState) (r : Option String × SortState)
    (h : dfsComponentSort fuel u st = some r) : dfsComponentSort fuel' u st = some r := by
  induction hle with
  | refl => exact h
  | step _ ih => exact dfsComponentSort_succ _ u st r ih

theorem dfsComponentSort_returns (st : SortState)
    (hm : st.service.GetComponentsMap.1 = buildComponentsMap st.service.Components)
    (u : ServiceComponent) (hu : u ∈ st.service.Components) (fuel : Nat)
    (hfuel : distinctNames st.service.Components ≤ fuel) :
    dfsComponentSort fuel u st ≠ none := by
  have hne := foldl_set_get_ne_none st.service.Components GoMap.empty u.Name
    (Or.inl ⟨u, hu, rfl⟩)
  have hlt : uncoloured (buildComponentsMap st.service.Components)
      (st.colors.set u.Name 1) < fuel := by
    cases hq : (buildComponentsMap st.service.Components).get u.Name with
    | none => exact absurd hq hne
    | some v =>
      have hv := (buildComponentsMap_get hq).2
      have h1 : uncoloured (buildComponentsMap st.service.Components)
          (st.colors.set u.Name 1) <
          uncoloured (buildComponentsMap st.service.Components) GoMap.empty := by
        apply uncoloured_lt _ (GoMap.mem_of_get hq) (GoMap.get_empty _)
        · rw [hv]; simp [GoMap.get_set]
        · intro n hn; exact absurd (GoMap.get_empty n) hn
      have h2 := uncoloured_le_length (buildComponentsMap st.service.Components)
        (GoMap.empty : GoMap Nat)
      have h3 := buildComponentsMap_length_le st.service.Components
      omega
  have htot := coreSort_total (buildComponentsMap st.service.Components) st.service.Name
    fuel u st.core hlt
  obtain ⟨hcore, _⟩ := dfsComponentSort_core st.service fuel u st (Frame.self _)
  rw [hm] at hcore
  intro hnone
  rw [hnone] at hcore
  exact htot hcore.symm

/-- C17: `dfsComponentSort` terminates on every service and every component of it,
cyclic dependencies included. The loop over the dependencies makes the recursive call
only for a component whose name is not coloured (replacing the callee on other
arguments changes nothing), the call colours the name of its component before
anything else, and with a budget of nested calls equal to the number of distinct
component names, or larger, the call returns, with the same result for every such
budget. -/
theorem dfsComponentSort_terminates :
    (∀ (visit visit' : ServiceComponent → SortState → Option (Option String × SortState)),
      (∀ v st, st.colors.get v.Name = none → visit v st = visit' v st) →
        ∀ deps st, dfsDependencies visit deps st = dfsDependencies visit' deps st) ∧
    (∀ fuel u st, dfsComponentSort (fuel + 1) u st =
      match dfsDependencies (dfsComponentSort fuel) u.Dependencies
          { st with colors := st.colors.set u.Name 1 } with
      | none => none
      | some (some err, st2) => some (some err, st2)
      | some (none, st2) =>
        some (none,
          { service :=
              { st2.service with
                componentsOrdered := st2.service.componentsOrdered ++ [u] },
            colors := st2.colors.set u.Name 2 })) ∧
    (∀ (st : SortState) (u : ServiceComponent),
      st.service.GetComponentsMap.1 = buildComponentsMap st.service.Components →
      u ∈ st.service.Components →
        ∃ r, ∀ fuel, distinctNames st.service.Components ≤ fuel →
          dfsComponentSort fuel u st = some r) := by
  refine ⟨fun _ _ h => dfsDependencies_congr h, fun _ _ _ => rfl, ?_⟩
  intro st u hm hu
  cases h0 : dfsComponentSort (distinctNames st.service.Components) u st with
  | none => exact absurd h0 (dfsComponentSort_returns st hm u hu _ (le_refl _))
  | some r => exact ⟨r, fun fuel hle => dfsComponentSort_mono hle u st r h0⟩

theorem dfsComponentSort_terminates_witness :
    distinctNames twoCycleComponents = 2 ∧
      ∃ r, ∀ fuel, 2 ≤ fuel →
        dfsComponentSort fuel (mkComponent "a" ["b"])
          { service := Service.new "service" [] twoCycleComponents, colors := GoMap.empty }
          = some r :=
  ⟨by decide,
    dfsComponentSort_terminates.2.2
      { service := Service.new "service" [] twoCycleComponents, colors := GoMap.empty }
      (mkComponent "a" ["b"]) rfl (by decide)⟩

/-! ## Services that were not reassigned -/

theorem Service.Consistent.initially (name : String) (labels : List (String × String))
    (components : List ServiceComponent) :
    (Service.new name labels components).Consistent :=
  ⟨rfl, fun _ => ⟨rfl, rfl⟩, fun h => by simp [Service.new] at h⟩

theorem Service.Consistent.throughMap {s : Service} (h : s.Consistent) :
    s.GetComponentsMap.2.Consistent := by
  obtain ⟨g1, _, g3, g4, g5, g6⟩ := getMap_snd_fields s
  constructor
  · rw [getMap_snd_getMap, g3]; exact h.map
  · intro hb
    rw [g4] at hb
    rw [g5, g6]
    exact h.unsorted hb
  · intro hb
    rw [g4] at hb
    rw [g1, g3, g5, g6]
    exact h.sorted hb

/-- A call on a consistent service returns what the first sort of a service with the
same name and components returns, and leaves a consistent service with the same
exported fields. -/
theorem Service.Consistent.call {s : Service} (h : s.Consistent) :
    ∃ l e s', s.GetComponentsSortedTopologically = some ((l, e), s') ∧
      s'.Consistent ∧ s'.Name = s.Name ∧ s'.Labels = s.Labels ∧
      s'.Components = s.Components ∧
      ∃ s0 s1 : Service, s0.Unsorted ∧ s0.Name = s.Name ∧ s0.Components = s.Components ∧
        s0.GetComponentsSortedTopologically = some ((l, e), s1) := by
  by_cases hb : s.componentsOrderedOnce = true
  · exact ⟨_, _, s, getSorted_of_sorted s hb, h, rfl, rfl, rfl, h.sorted hb⟩
  · have hb2 : s.componentsOrderedOnce = false := by simpa using hb
    have hu : s.Unsorted := ⟨hb2, (h.unsorted hb2).1, (h.unsorted hb2).2, h.map⟩
    obtain ⟨l, e, s', hc, ho, hl, he, hm, hn, hlab, hcs, _⟩ := getSorted_first s hb2
    refine ⟨l, e, s', hc, ⟨?_, ?_, ?_⟩, hn, hlab, hcs, s, s', hu, rfl, rfl, hc⟩
    · rw [hm, hcs]; exact h.map
    · intro hf; rw [ho] at hf; simp at hf
    · intro _
      rw [hl, he, hn, hcs]
      exact ⟨s, s', hu, rfl, rfl, hc⟩

theorem Service.Consistent.getter {s s' : Service} (h : s.Consistent) (op : ServiceOp)
    (hop : op.isGetter = true) (happ : s.apply op = some s') :
    s'.Consistent ∧ s'.Name = s.Name ∧ s'.Labels = s.Labels ∧
      s'.Components = s.Components := by
  cases op with
  | assign name labels components => simp [ServiceOp.isGetter] at hop
  | getComponentsMap =>
    simp only [Service.apply, Option.some.injEq] at happ
    subst happ
    obtain ⟨g1, g2, g3, _⟩ := getMap_snd_fields s
    exact ⟨h.throughMap, g1, g2, g3⟩
  | getComponentsSortedTopologically =>
    obtain ⟨l, e, s1, hc, h1, h2, h3, h4, _⟩ := h.call
    simp only [Service.apply, hc, Option.map_some', Option.some.injEq] at happ
    subst happ
    exact ⟨h1, h2, h3, h4⟩

theorem Service.Consistent.getters (ops : List ServiceOp) :
    ∀ {s s' : Service}, s.Consistent → (∀ op ∈ ops, op.isGetter = true) →
      s.run ops = some s' → s'.Consistent := by
  induction ops with
  | nil =>
    intro s s' h _ hrun
    simp only [Service.run, Option.some.injEq] at hrun
    subst hrun
    exact h
  | cons op ops ih =>
    intro s s' h hall hrun
    simp only [Service.run] at hrun
    split at hrun
    · simp at hrun
    · rename_i s1 hop
      exact ih (h.getter op (hall op (List.mem_cons_self _ _)) hop).1
        (fun o ho => hall o (List.mem_cons_of_mem _ ho)) hrun

theorem Service.Unmodified.consistent {s : Service} (h : s.Unmodified) : s.Consistent := by
  obtain ⟨ops, hall, hrun⟩ := h
  exact Service.Consistent.getters ops (Service.Consistent.initially _ _ _) hall hrun

theorem Service.Unmodified.whenNew (name : String) (labels : List (String × String))
    (components : List ServiceComponent) :
    (Service.new name labels components).Unmodified :=
  ⟨[], by simp, rfl⟩

theorem Service.Consistent.gettersFields (ops : List ServiceOp) :
    ∀ {s s' : Service}, s.Consistent → (∀ op ∈ ops, op.isGetter = true) →
      s.run ops = some s' →
      s'.Name = s.Name ∧ s'.Labels = s.Labels ∧ s'.Components = s.Components := by
  induction ops with
  | nil =>
    intro s s' _ _ hrun
    simp only [Service.run, Option.some.injEq] at hrun
    subst hrun
    exact ⟨rfl, rfl, rfl⟩
  | cons op ops ih =>
    intro s s' h hall hrun
    simp only [Service.run] at hrun
    split at hrun
    · simp at hrun
    · rename_i s1 hop
      obtain ⟨h1, h2, h3, h4⟩ := h.getter op (hall op (List.mem_cons_self _ _)) hop
      obtain ⟨g2, g3, g4⟩ := ih h1 (fun o ho => hall o (List.mem_cons_of_mem _ ho)) hrun
      exact ⟨g2.trans h2, g3.trans h3, g4.trans h4⟩

theorem Service.run_concat (ops ops' : List ServiceOp) :
    ∀ s : Service, s.run (ops ++ ops') = (s.run ops).bind (fun s1 => s1.run ops') := by
  induction ops with
  | nil => intro s; rfl
  | cons op ops ih =>
    intro s
    simp only [List.cons_append, Service.run]
    cases s.apply op with
    | none => rfl
    | some s1 => exact ih s1

/-- Calls of the getters lead from a service that was not reassigned to a service that
was not reassigned: the notion covers the first call and every later one. -/
theorem Service.Unmodified.afterGetters {s s' : Service} (h : s.Unmodified)
    (ops : List ServiceOp) (hall : ∀ op ∈ ops, op.isGetter = true)
    (hrun : s.run ops = some s') : s'.Unmodified := by
  obtain ⟨g1, g2, g3⟩ := h.consistent.gettersFields ops hall hrun
  obtain ⟨ops0, hall0, hrun0⟩ := h
  refine ⟨ops0 ++ ops, ?_, ?_⟩
  · intro op hop
    rcases List.mem_append.mp hop with hop | hop
    · exact hall0 op hop
    · exact hall op hop
  · rw [g1, g2, g3, Service.run_concat, hrun0]
    exact hrun

theorem Service.Unmodified.reachable {s : Service} (h : s.Unmodified) : s.Reachable := by
  obtain ⟨ops, _, hrun⟩ := h
  exact ⟨_, _, _, ops, hrun⟩

theorem sortedService_once :
    (sortedService reversedComponents).componentsOrderedOnce = true ∧
      (sortedService reversedComponents).GetComponentsMap.1 =
        buildComponentsMap reversedComponents := by
  exact ⟨rfl, rfl⟩

theorem sortedService_unmodified (components : List ServiceComponent)
    (h : ((Service.new "service" [] components).run
      [ServiceOp.getComponentsSortedTopologically, ServiceOp.getComponentsMap]).isSome = true) :
    (sortedService components).Unmodified := by
  unfold sortedService
  cases hr : (Service.new "service" [] components).run
      [ServiceOp.getComponentsSortedTopologically, ServiceOp.getComponentsMap] with
  | none => rw [hr] at h; simp at h
  | some s1 =>
    simp only [Option.getD_some]
    exact (Service.Unmodified.whenNew "service" [] components).afterGetters _
      (by decide) hr

theorem staleMapService_reachable (initial later : List ServiceComponent) :
    (staleMapService initial later).Reachable :=
  ⟨"service", [], initial,
    [ServiceOp.getComponentsMap, ServiceOp.assign "service" [] later], rfl⟩

/-! ## The sort of a service that was not reassigned -/

/-- C2 as stated fails: on the service on which `GetComponentsMap` was called while its
only component was `a`, and whose `Components` was then assigned the one component `x`
depending on `a`, the names are pairwise distinct and the call returns `[a, x]` with no
error, which is no permutation of `Components`. -/
theorem sorted_not_perm_after_reassignment :
    (staleMapService [mkComponent "a" []] [mkComponent "x" ["a"]]).Reachable ∧
      ((staleMapService [mkComponent "a" []] [mkComponent "x" ["a"]]).Components.map
        (fun c => c.Name)).Nodup ∧
      ∃ l s', (staleMapService [mkComponent "a" []]
          [mkComponent "x" ["a"]]).GetComponentsSortedTopologically = some ((l, none), s') ∧
        l = [mkComponent "a" [], mkComponent "x" ["a"]] ∧
        ¬ l.Perm (staleMapService [mkComponent "a" []] [mkComponent "x" ["a"]]).Components := by
  refine ⟨staleMapService_reachable _ _, by decide, _, _, rfl, rfl, ?_⟩
  intro hp
  have := hp.length_eq
  simp [staleMapService] at this

/-- C2 amended: for every service whose component names are pairwise distinct and whose
exported fields have not been assigned since its getters were first called (every newly
constructed service, at its first call and at every later one), when
`GetComponentsSortedTopologically` returns no error the returned list is a permutation
of `service.Components`. -/
theorem getComponentsSortedTopologically_perm (s : Service) (hu : s.Unmodified)
    (hnd : (s.Components.map (fun x => x.Name)).Nodup)
    (l : List ServiceComponent) (s' : Service)
    (h : s.GetComponentsSortedTopologically = some ((l, none), s')) :
    l.Perm s.Components := by
  obtain ⟨l1, e1, s1, hc, _, _, _, _, s0, s2, hU, _, hcs, h0⟩ := hu.consistent.call
  rw [hc] at h
  simp only [Option.some.injEq, Prod.mk.injEq] at h
  obtain ⟨⟨h1, h2⟩, _⟩ := h
  subst h1 h2
  rw [← hcs] at hnd ⊢
  exact (getSorted_unsorted_ok hU hnd h0).2

theorem getComponentsSortedTopologically_perm_witness :
    (sortedService reversedComponents).Unmodified ∧
    (sortedService reversedComponents).componentsOrderedOnce = true ∧
    ((sortedService reversedComponents).Components.map (fun x => x.Name)).Nodup ∧
    List.Perm [mkComponent "c" [], mkComponent "b" ["c"], mkComponent "a" ["b"]]
      (sortedService reversedComponents).Components :=
  ⟨sortedService_unmodified _ rfl, rfl, by decide,
    getComponentsSortedTopologically_perm (sortedService reversedComponents)
      (sortedService_unmodified _ rfl) (by decide) _ _ rfl⟩

/-- C3 as stated fails: on the service on which `GetComponentsMap` was called while its
components `a` and `b` had no dependencies, and whose `Components` was then assigned
`a → b`, `b → a`, the names are pairwise distinct and `a` depends on itself through
`b`, yet the call returns the list `[b, a]` and no error. -/
theorem cycle_unnoticed_after_reassignment :
    (staleMapService [mkComponent "a" [], mkComponent "b" []] twoCycleComponents).Reachable ∧
      ((staleMapService [mkComponent "a" [], mkComponent "b" []]
        twoCycleComponents).Components.map (fun c => c.Name)).Nodup ∧
      (∃ c, Relation.TransGen (DependsOn (staleMapService
        [mkComponent "a" [], mkComponent "b" []] twoCycleComponents).Components) c c) ∧
      (∃ s', (staleMapService [mkComponent "a" [], mkComponent "b" []]
          twoCycleComponents).GetComponentsSortedTopologically =
        some (([mkComponent "b" [], mkComponent "a" ["b"]], none), s')) ∧
      ¬ ∃ err s', (staleMapService [mkComponent "a" [], mkComponent "b" []]
          twoCycleComponents).GetComponentsSortedTopologically =
        some (([], some err), s') := by
  refine ⟨staleMapService_reachable _ _, by decide, ?_, ⟨_, rfl⟩, ?_⟩
  · have h1 : DependsOn (staleMapService [mkComponent "a" [], mkComponent "b" []]
        twoCycleComponents).Components (mkComponent "a" ["b"]) (mkComponent "b" ["a"]) :=
      ⟨by decide, by decide, by decide⟩
    have h2 : DependsOn (staleMapService [mkComponent "a" [], mkComponent "b" []]
        twoCycleComponents).Components (mkComponent "b" ["a"]) (mkComponent "a" ["b"]) :=
      ⟨by decide, by decide, by decide⟩
    exact ⟨mkComponent "a" ["b"], Relation.TransGen.tail (Relation.TransGen.single h1) h2⟩
  · rintro ⟨err, s', h⟩
    have h0 : (staleMapService [mkComponent "a" [], mkComponent "b" []]
        twoCycleComponents).GetComponentsSortedTopologically =
      some (([mkComponent "b" [], mkComponent "a" ["b"]], none), _) := rfl
    rw [h0] at h
    simp at h

/-- C3 amended: for every service with pairwise distinct component names whose exported
fields have not been assigned since its getters were first called, in which some
component depends on itself, directly or through a chain of dependencies,
`GetComponentsSortedTopologically` returns an error and the nil list. -/
theorem getComponentsSortedTopologically_cycle (s : Service) (hu : s.Unmodified)
    (hnd : (s.Components.map (fun x => x.Name)).Nodup)
    (hcyc : ∃ c, Relation.TransGen (DependsOn s.Components) c c) :
    ∃ err s', s.GetComponentsSortedTopologically = some (([], some err), s') := by
  obtain ⟨l1, e1, s1, hc, _, _, _, _, s0, s2, hU, _, hcs, h0⟩ := hu.consistent.call
  rw [← hcs] at hnd hcyc
  obtain ⟨err, s3, h3⟩ := firstSort_cycle hU hnd hcyc
  rw [h0] at h3
  simp only [Option.some.injEq, Prod.mk.injEq] at h3
  obtain ⟨⟨h4, h5⟩, _⟩ := h3
  subst h4 h5
  exact ⟨err, s1, hc⟩

theorem getComponentsSortedTopologically_cycle_witness :
    (sortedService cycleComponents).Unmodified ∧
    (sortedService cycleComponents).componentsOrderedOnce = true ∧
    ((sortedService cycleComponents).Components.map (fun x => x.Name)).Nodup ∧
    ∃ err s', (sortedService cycleComponents).GetComponentsSortedTopologically
      = some (([], some err), s') :=
  ⟨sortedService_unmodified _ rfl, rfl, by decide,
    getComponentsSortedTopologically_cycle (sortedService cycleComponents)
      (sortedService_unmodified _ rfl) (by decide)
      ⟨mkComponent "component-0" ["component-0"],
        Relation.TransGen.single ⟨by decide, by decide, by decide⟩⟩⟩

/-- C4 as stated fails: on the service on which `GetComponentsMap` was called while its
only component was `a`, and whose `Components` was then assigned the one component `x`
depending on `a`, the dependency `a` is the name of no component of the service, yet
the call returns a list and no error. -/
theorem missing_unnoticed_after_reassignment :
    (staleMapService [mkComponent "a" []] [mkComponent "x" ["a"]]).Reachable ∧
      ((staleMapService [mkComponent "a" []] [mkComponent "x" ["a"]]).Components.map
        (fun c => c.Name)).Nodup ∧
      (∃ c ∈ (staleMapService [mkComponent "a" []] [mkComponent "x" ["a"]]).Components,
        ∃ d ∈ c.Dependencies,
          ∀ x ∈ (staleMapService [mkComponent "a" []] [mkComponent "x" ["a"]]).Components,
            x.Name ≠ d) ∧
      (∃ s', (staleMapService [mkComponent "a" []]
          [mkComponent "x" ["a"]]).GetComponentsSortedTopologically =
        some (([mkComponent "a" [], mkComponent "x" ["a"]], none), s')) ∧
      ¬ ∃ err s', (staleMapService [mkComponent "a" []]
          [mkComponent "x" ["a"]]).GetComponentsSortedTopologically =
        some (([], some err), s') := by
  refine ⟨staleMapService_reachable _ _, by decide, ?_, ⟨_, rfl⟩, ?_⟩
  · exact ⟨mkComponent "x" ["a"], by decide, "a", by decide, by decide⟩
  · rintro ⟨err, s', h⟩
    have h0 : (staleMapService [mkComponent "a" []]
        [mkComponent "x" ["a"]]).GetComponentsSortedTopologically =
      some (([mkComponent "a" [], mkComponent "x" ["a"]], none), _) := rfl
    rw [h0] at h
    simp at h

/-- C4 amended: for every service with pairwise distinct component names whose exported
fields have not been assigned since its getters were first called, in which some
component lists in `Dependencies` a name that is not the name of any component of the
service, `GetComponentsSortedTopologically` returns an error and the nil list. -/
theorem getComponentsSortedTopologically_missing (s : Service) (hu : s.Unmodified)
    (hnd : (s.Components.map (fun x => x.Name)).Nodup)
    (hmiss : ∃ c ∈ s.Components, ∃ d ∈ c.Dependencies, ∀ x ∈ s.Components, x.Name ≠ d) :
    ∃ err s', s.GetComponentsSortedTopologically = some (([], some err), s') := by
  obtain ⟨l1, e1, s1, hc, _, _, _, _, s0, s2, hU, _, hcs, h0⟩ := hu.consistent.call
  rw [← hcs] at hnd hmiss
  obtain ⟨err, s3, h3⟩ := firstSort_missing hU hnd hmiss
  rw [h0] at h3
  simp only [Option.some.injEq, Prod.mk.injEq] at h3
  obtain ⟨⟨h4, h5⟩, _⟩ := h3
  subst h4 h5
  exact ⟨err, s1, hc⟩

theorem getComponentsSortedTopologically_missing_witness :
    (Service.new "service" [] invalidComponents).Unmodified ∧
    (invalidComponents.map (fun x => x.Name)).Nodup ∧
    ∃ err s', (Service.new "service" [] invalidComponents).GetComponentsSortedTopologically
      = some (([], some err), s') :=
  ⟨Service.Unmodified.whenNew _ _ _, by decide,
    getComponentsSortedTopologically_missing (Service.new "service" [] invalidComponents)
      (Service.Unmodified.whenNew _ _ _) (by decide)
      ⟨mkComponent "component-0" ["invalid"], by decide, "invalid", by decide, by decide⟩⟩

/-- C5 as stated fails: on the service on which `GetComponentsMap` was called while its
only component was `a`, and whose `Components` was then assigned `a → b` and `b`, the
names are pairwise distinct, every dependency names a component and there is no cycle,
yet the call returns the error for a dependency on the non-existing component `b`. -/
theorem valid_rejected_after_reassignment :
    (staleMapService [mkComponent "a" []]
        [mkComponent "a" ["b"], mkComponent "b" []]).Reachable ∧
      ((staleMapService [mkComponent "a" []]
        [mkComponent "a" ["b"], mkComponent "b" []]).Components.map
          (fun c => c.Name)).Nodup ∧
      (∀ c ∈ (staleMapService [mkComponent "a" []]
          [mkComponent "a" ["b"], mkComponent "b" []]).Components,
        ∀ d ∈ c.Dependencies,
          ∃ x ∈ (staleMapService [mkComponent "a" []]
            [mkComponent "a" ["b"], mkComponent "b" []]).Components, x.Name = d) ∧
      (∀ c, ¬ Relation.TransGen (DependsOn (staleMapService [mkComponent "a" []]
        [mkComponent "a" ["b"], mkComponent "b" []]).Components) c c) ∧
      ∃ s', (staleMapService [mkComponent "a" []]
          [mkComponent "a" ["b"], mkComponent "b" []]).GetComponentsSortedTopologically =
        some (([], some "service 'service' has a dependency on non-existing component 'b'"),
          s') := by
  refine ⟨staleMapService_reachable _ _, by decide, by decide, ?_, ⟨_, rfl⟩⟩
  apply acyclic_of_rank (fun c => c.Dependencies.length)
  rintro a b ⟨ha, hb, hd⟩
  simp only [staleMapService, List.mem_cons, List.mem_singleton, List.not_mem_nil,
    or_false] at ha hb
  rcases ha with rfl | rfl <;> rcases hb with rfl | rfl <;> simp [mkComponent] at hd ⊢

/-- C5 amended: for every service with pairwise distinct component names whose exported
fields have not been assigned since its getters were first called, in which every name
in every `Dependencies` list is the name of a component of the service and no component
depends on itself through a chain of dependencies, `GetComponentsSortedTopologically`
returns (it does return) a list and the nil error, as for the test's components where
component `i` depends on all components `j < i`. -/
theorem getComponentsSortedTopologically_valid (s : Service) (hu : s.Unmodified)
    (hnd : (s.Components.map (fun x => x.Name)).Nodup)
    (hdeps : ∀ c ∈ s.Components, ∀ d ∈ c.Dependencies, ∃ x ∈ s.Components, x.Name = d)
    (hacyc : ∀ c, ¬ Relation.TransGen (DependsOn s.Components) c c) :
    ∃ l s', s.GetComponentsSortedTopologically = some ((l, none), s') := by
  obtain ⟨l1, e1, s1, hc, _, _, _, _, s0, s2, hU, _, hcs, h0⟩ := hu.consistent.call
  rw [← hcs] at hnd hdeps hacyc
  obtain ⟨l, s3, h3⟩ := firstSort_valid hU hnd hdeps hacyc
  rw [h0] at h3
  simp only [Option.some.injEq, Prod.mk.injEq] at h3
  obtain ⟨⟨h4, h5⟩, _⟩ := h3
  subst h4 h5
  exact ⟨l1, s1, hc⟩

theorem getComponentsSortedTopologically_valid_witness :
    (Service.new "service" [] testComponents).Unmodified ∧
    (testComponents.map (fun x => x.Name)).Nodup ∧
    ∃ l s', (Service.new "service" [] testComponents).GetComponentsSortedTopologically
      = some ((l, none), s') :=
  ⟨Service.Unmodified.whenNew _ _ _, by decide,
    getComponentsSortedTopologically_valid (Service.new "service" [] testComponents)
      (Service.Unmodified.whenNew _ _ _) (by decide) (by decide) testComponents_acyclic⟩

/-! ## The error for two components that depend on each other -/

theorem coreSort_pair_second {M : GoMap ServiceComponent} {nm : String}
    {a b : ServiceComponent}
    (hM : ∀ k v, M.get k = some v → (v = a ∨ v = b) ∧ v.Name = k)
    (hba : a.Name ∈ b.Dependencies) (n : Nat) (σ : Core)
    (ha1 : σ.colors.get a.Name = some 1) :
    ∃ e σ', coreSort M nm (n + 1) b σ = some (some e, σ') ∧
      ((∃ d, d ∈ b.Dependencies ∧ M.get d = none ∧ e = errNonExisting nm d) ∨
        e = errCycle nm a.Name ∨ e = errCycle nm b.Name) := by
  cases hdeps : b.Dependencies with
  | nil => rw [hdeps] at hba; simp at hba
  | cons d rest =>
    simp only [coreSort, hdeps, coreDependencies]
    cases hget : M.get d with
    | none => exact ⟨_, _, rfl, Or.inl ⟨d, List.mem_cons_self _ _, hget, rfl⟩⟩
    | some v =>
      obtain ⟨hv, hvn⟩ := hM d v hget
      have hcol : (σ.colors.set b.Name 1).get v.Name = some 1 := by
        rcases hv with rfl | rfl
        · by_cases e : v.Name = b.Name
          · simp [GoMap.get_set, e]
          · rw [GoMap.get_set_of_ne e]; exact ha1
        · simp [GoMap.get_set]
      simp only [hcol, if_true]
      refine ⟨_, _, rfl, Or.inr ?_⟩
      rcases hv with rfl | rfl
      · left; rw [hvn]
      · right; rw [hvn]

theorem coreSort_pair_first {M : GoMap ServiceComponent} {nm : String}
    {a b : ServiceComponent}
    (hM : ∀ k v, M.get k = some v → (v = a ∨ v = b) ∧ v.Name = k)
    (hab : b.Name ∈ a.Dependencies) (hba : a.Name ∈ b.Dependencies) (n : Nat) (σ : Core)
    (hσ : ∀ k, σ.colors.get k = none) :
    ∃ e σ', coreSort M nm (n + 2) a σ = some (some e, σ') ∧
      ((∃ d, (d ∈ a.Dependencies ∨ d ∈ b.Dependencies) ∧ M.get d = none ∧
          e = errNonExisting nm d) ∨
        e = errCycle nm a.Name ∨ e = errCycle nm b.Name) := by
  cases hdeps : a.Dependencies with
  | nil => rw [hdeps] at hab; simp at hab
  | cons d rest =>
    rw [coreSort]
    simp only [hdeps, coreDependencies]
    cases hget : M.get d with
    | none => exact ⟨_, _, rfl, Or.inl ⟨d, Or.inl (List.mem_cons_self _ _), hget, rfl⟩⟩
    | some v =>
      obtain ⟨hv, hvn⟩ := hM d v hget
      simp only
      by_cases hva : v.Name = a.Name
      · have hcol : (σ.colors.set a.Name 1).get v.Name = some 1 := by
          simp [GoMap.get_set, hva]
        simp only [hcol, if_true]
        exact ⟨_, _, rfl, Or.inr (Or.inl (by rw [← hva, hvn]))⟩
      · have hvb : v = b := by
          rcases hv with rfl | rfl
          · exact absurd rfl hva
          · rfl
        subst hvb
        have hcol : (σ.colors.set a.Name 1).get v.Name = none := by
          rw [GoMap.get_set_of_ne hva]; exact hσ _
        simp only [hcol]
        obtain ⟨e, σ', he, hshape⟩ := coreSort_pair_second hM hba n
          { σ with colors := σ.colors.set a.Name 1 } (by simp [GoMap.get_set])
        rw [he]
        refine ⟨e, σ', rfl, hshape.imp ?_ id⟩
        rintro ⟨d1, hd1, hrest⟩
        exact ⟨d1, Or.inr hd1, hrest⟩

theorem firstSort_pair {s : Service} (hu : s.Unsorted) {a b : ServiceComponent}
    (hcs : s.Components = [a, b]) (hab : b.Name ∈ a.Dependencies)
    (hba : a.Name ∈ b.Dependencies) :
    ∃ e s', s.GetComponentsSortedTopologically = some (([], some e), s') ∧
      ((∃ d, (d ∈ a.Dependencies ∨ d ∈ b.Dependencies) ∧
          (∀ c ∈ s.Components, c.Name ≠ d) ∧ e = errNonExisting s.Name d) ∨
        e = errCycle s.Name a.Name ∨ e = errCycle s.Name b.Name) := by
  have hM : ∀ k v, (buildComponentsMap s.Components).get k = some v →
      (v = a ∨ v = b) ∧ v.Name = k := by
    intro k v h
    obtain ⟨h1, h2⟩ := buildComponentsMap_get h
    rw [hcs] at h1
    simp only [List.mem_cons, List.mem_singleton, List.not_mem_nil, or_false] at h1
    exact ⟨h1, h2⟩
  have hlen : ∃ n, sortFuel s = n + 2 := by
    unfold sortFuel
    rw [hu.2.2.2, hcs]
    simp only [buildComponentsMap, List.foldl_cons, List.foldl_nil, GoMap.set,
      List.length_cons]
    exact ⟨_, rfl⟩
  obtain ⟨n, hn⟩ := hlen
  obtain ⟨e, σ', he, hshape⟩ := @coreSort_pair_first _ s.Name _ _ hM hab hba n
    { colors := GoMap.empty, ordered := ([] : List ServiceComponent) }
    (fun k => GoMap.get_empty k)
  have hr : firstRun s = some (some e, σ') := by
    unfold firstRun
    rw [hu.2.1, hu.2.2.2, hn]
    rw [hcs] at he ⊢
    simp only [coreComponents, GoMap.get_empty, he]
  obtain ⟨l, e1, s', hc, hrun⟩ := getSorted_unsorted hu
  rcases hrun with ⟨σ1, h1, _, _⟩ | ⟨err, σ1, h1, hl, he1⟩
  · rw [hr] at h1; simp at h1
  · rw [hr] at h1
    simp only [Option.some.injEq, Prod.mk.injEq] at h1
    subst hl he1
    rw [← h1.1] at hc
    refine ⟨e, s', hc, ?_⟩
    rcases hshape with ⟨d, hdm, hd, hed⟩ | h2 | h2
    · left
      refine ⟨d, hdm, ?_, hed⟩
      intro c hcm hcn
      exact foldl_set_get_ne_none s.Components GoMap.empty d (Or.inl ⟨c, hcm, hcn⟩) hd
    · exact Or.inr (Or.inl h2)
    · exact Or.inr (Or.inr h2)

/-- C11 amended: for a service whose exported fields have not been assigned since its
getters were first called and whose components are `a` and `b`, where `a` depends on
`b` and `b` depends on `a`, `GetComponentsSortedTopologically` returns the nil list and
an error. The error is the cycle error `component cycle detected while processing
service '<service>' component '<x>'` where `x` is the name of `a` or the name of `b`,
the dependency name that was met while in progress: its message mentions the service
and that one component (it has no place for another name). The only other error there
can be is the one for a dependency of `a` or `b` on a name that is no component of the
service. -/
theorem cycle_error_message (s : Service) (hu : s.Unmodified) (a b : ServiceComponent)
    (hcs : s.Components = [a, b] ∨ s.Components = [b, a])
    (hab : b.Name ∈ a.Dependencies) (hba : a.Name ∈ b.Dependencies) :
    ∃ e s', s.GetComponentsSortedTopologically = some (([], some e), s') ∧
      ((∃ d, (d ∈ a.Dependencies ∨ d ∈ b.Dependencies) ∧
          (∀ c ∈ s.Components, c.Name ≠ d) ∧ e = errNonExisting s.Name d) ∨
        ∃ x, (x = a.Name ∨ x = b.Name) ∧ e = errCycle s.Name x ∧
          Mentions e x ∧ Mentions e s.Name) := by
  obtain ⟨l1, e1, s1, hc, _, _, _, _, s0, s2, hU, hname, hcomps, h0⟩ := hu.consistent.call
  have key : ∃ e s', s0.GetComponentsSortedTopologically = some (([], some e), s') ∧
      ((∃ d, (d ∈ a.Dependencies ∨ d ∈ b.Dependencies) ∧
          (∀ c ∈ s0.Components, c.Name ≠ d) ∧ e = errNonExisting s0.Name d) ∨
        e = errCycle s0.Name a.Name ∨ e = errCycle s0.Name b.Name) := by
    rcases hcs with hcs | hcs
    · exact firstSort_pair hU (hcomps.trans hcs) hab hba
    · obtain ⟨e, s', h1, h2⟩ := firstSort_pair hU (hcomps.trans hcs) hba hab
      refine ⟨e, s', h1, Or.imp ?_ Or.symm h2⟩
      rintro ⟨d, hd, hrest⟩
      exact ⟨d, hd.symm, hrest⟩
  obtain ⟨e, s3, h3, hshape⟩ := key
  rw [h0] at h3
  simp only [Option.some.injEq, Prod.mk.injEq] at h3
  obtain ⟨⟨h4, h5⟩, _⟩ := h3
  subst h4 h5
  rw [hname, hcomps] at hshape
  refine ⟨e, s1, hc, ?_⟩
  rcases hshape with h | h | h
  · exact Or.inl h
  · right
    exact ⟨a.Name, Or.inl rfl, h, h ▸ mentions_errCycle_component _ _,
      h ▸ mentions_errCycle_service _ _⟩
  · right
    exact ⟨b.Name, Or.inr rfl, h, h ▸ mentions_errCycle_component _ _,
      h ▸ mentions_errCycle_service _ _⟩

theorem cycle_error_message_witness :
    (Service.new "service" [] twoCycleComponents).Unmodified ∧
    ∃ e s', (Service.new "service" [] twoCycleComponents).GetComponentsSortedTopologically
        = some (([], some e), s') ∧
      ((∃ d, (d ∈ (mkComponent "a" ["b"]).Dependencies ∨
            d ∈ (mkComponent "b" ["a"]).Dependencies) ∧
          (∀ c ∈ (Service.new "service" [] twoCycleComponents).Components, c.Name ≠ d) ∧
          e = errNonExisting "service" d) ∨
        ∃ x, (x = "a" ∨ x = "b") ∧ e = errCycle "service" x ∧
          Mentions e x ∧ Mentions e "service") :=
  ⟨Service.Unmodified.whenNew _ _ _,
    cycle_error_message (Service.new "service" [] twoCycleComponents)
      (Service.Unmodified.whenNew _ _ _) (mkComponent "a" ["b"]) (mkComponent "b" ["a"])
      (Or.inl rfl) (by decide) (by decide)⟩

/-! ## The progress indicator and the actions handed out -/

theorem applyAction_events {Ctx : Type} (act : Action Ctx) (st : ApplyState Ctx) :
    (applyAction act st).2.events.filter Event.isProgress =
        st.events.filter Event.isProgress ++
          [Event.advance, Event.executed act.name (act.Apply st.context).1] ∧
      (applyAction act st).2.events.countP Event.isAdvance =
        st.events.countP Event.isAdvance + 1 ∧
      (applyAction act st).2.events.countP Event.isExecuted =
        st.events.countP Event.isExecuted + 1 := by
  unfold applyAction
  cases he : executeAction act st.context with
  | mk e c =>
    cases e with
    | some err =>
      simp [List.filter_append, List.countP_append, List.countP_cons, List.filter_cons,
        Event.isProgress, Event.isAdvance, Event.isExecuted]
    | none =>
      simp [List.filter_append, List.countP_append, List.countP_cons, List.filter_cons,
        Event.isProgress, Event.isAdvance, Event.isExecuted]

theorem planApply_events {Ctx : Type} (plan : Plan Ctx) :
    ∀ st : ApplyState Ctx,
      (plan.Apply (WrapSequential applyAction) st).2.events.filter Event.isProgress =
          st.events.filter Event.isProgress ++
            progressEvents ((plan.handed (WrapSequential applyAction) st).map
              (fun p => (p.1, p.2.context))) ∧
        (plan.Apply (WrapSequential applyAction) st).2.events.countP Event.isAdvance =
          st.events.countP Event.isAdvance +
            (plan.handed (WrapSequential applyAction) st).length ∧
        (plan.Apply (WrapSequential applyAction) st).2.events.countP Event.isExecuted =
          st.events.countP Event.isExecuted +
            (plan.handed (WrapSequential applyAction) st).length := by
  induction plan with
  | finished result => intro st; simp [Plan.Apply, Plan.handed, progressEvents]
  | hand act next ih =>
    intro st
    obtain ⟨h1, h2, h3⟩ := ih ((WrapSequential applyAction act st).1)
      (WrapSequential applyAction act st).2
    obtain ⟨g1, g2, g3⟩ := applyAction_events act st
    simp only [WrapSequential] at h1 h2 h3 ⊢
    simp only [Plan.Apply, Plan.handed, List.map_cons, progressEvents, List.length_cons]
    rw [h1, h2, h3, g1, g2, g3]
    refine ⟨by simp, by omega, by omega⟩

theorem mem_progressEvents {Ctx : Type} (name : String) (o : Outcome) :
    ∀ handed : List (Action Ctx × Ctx),
      Event.executed name o ∈ progressEvents handed ↔
        ∃ p ∈ handed, p.1.name = name ∧ (p.1.Apply p.2).1 = o := by
  intro handed
  induction handed with
  | nil => simp [progressEvents]
  | cons p rest ih =>
    obtain ⟨act, ctx⟩ := p
    simp only [progressEvents, List.mem_cons, reduceCtorEq, false_or, Event.executed.injEq, ih]
    constructor
    · rintro (⟨h1, h2⟩ | ⟨q, hq, h1, h2⟩)
      · exact ⟨(act, ctx), Or.inl rfl, h1.symm, h2.symm⟩
      · exact ⟨q, Or.inr hq, h1, h2⟩
    · rintro ⟨q, hq | hq, h1, h2⟩
      · subst hq; exact Or.inl ⟨h1.symm, h2.symm⟩
      · exact Or.inr ⟨q, hq, h1, h2⟩

theorem engineApply_progress_filter {Ctx : Type} (apply : EngineApply Ctx) :
    apply.Apply.events.filter Event.isProgress = progressEvents apply.handed ∧
      apply.Apply.events.countP Event.isAdvance = apply.handed.length ∧
      apply.Apply.events.countP Event.isExecuted = apply.handed.length := by
  obtain ⟨h1, h2, h3⟩ := planApply_events apply.actionPlan
    { context := apply.context,
      events := [Event.setTotal (apply.actionPlan.Apply Noop ()).1.Success],
      foundErrors := false }
  unfold EngineApply.handed
  unfold EngineApply.Apply
  simp only
  split
  · simp only [List.filter_append, List.countP_append, h1, h2, h3]
    simp [List.filter_cons, List.countP_cons, Event.isProgress, Event.isAdvance,
      Event.isExecuted]
  · simp only [List.filter_append, List.countP_append, h1, h2, h3]
    simp [List.filter_cons, List.countP_cons, Event.isProgress, Event.isAdvance,
      Event.isExecuted]

theorem failedIn_iff_handed {Ctx : Type} (apply : EngineApply Ctx) :
    FailedIn apply.Apply.events ↔
      ∃ p ∈ apply.handed, (p.1.Apply p.2).1.failed = true := by
  obtain ⟨h1, _, _⟩ := engineApply_progress_filter apply
  have hmem : ∀ a o, Event.executed a o ∈ apply.Apply.events ↔
      Event.executed a o ∈ progressEvents apply.handed := by
    intro a o
    rw [← h1, List.mem_filter]
    simp [Event.isProgress, Event.isExecuted]
  constructor
  · rintro ⟨a, o, hm, ho⟩
    obtain ⟨p, hp, _, h2⟩ := (mem_progressEvents a o _).mp ((hmem a o).mp hm)
    exact ⟨p, hp, by rw [h2]; exact ho⟩
  · rintro ⟨p, hp, hf⟩
    exact ⟨p.1.name, _, (hmem _ _).mpr ((mem_progressEvents _ _ _).mpr ⟨p, hp, rfl, rfl⟩), hf⟩

theorem threeStepEngine_handed :
    threeStepEngine.handed.map (fun p => p.1.name) = ["create a", "create c"] := by
  rfl

/-- C15: in `EngineApply.Apply` the progress counter is advanced exactly once for every
action the plan hands to the callback, directly before that action is executed: the
calls of `Advance` and the executions, in the order of the events, are one `Advance`
followed by the execution of the action for each action handed out, in the order in
which the plan hands them out; every `Advance` is directly followed by an execution and
every execution directly follows an `Advance`; the number of calls of `Advance` and the
number of executions both equal the number of actions handed out (failed ones
included). `Done` is called once, with `true` exactly when no executed action failed,
which is when no action handed out failed. -/
theorem progress_follows_actions {Ctx : Type} (apply : EngineApply Ctx) :
    apply.Apply.events.filter Event.isProgress = progressEvents apply.handed ∧
      apply.Apply.events.countP Event.isAdvance = apply.handed.length ∧
      apply.Apply.events.countP Event.isExecuted = apply.handed.length ∧
      advanceBeforeEach apply.Apply.events = true ∧
      apply.Apply.events.countP Event.isDone = 1 ∧
      (Event.done true ∈ apply.Apply.events ↔ ¬ FailedIn apply.Apply.events) ∧
      (Event.done false ∈ apply.Apply.events ↔ FailedIn apply.Apply.events) ∧
      (Event.done true ∈ apply.Apply.events ↔
        ∀ p ∈ apply.handed, (p.1.Apply p.2).1.failed = false) := by
  obtain ⟨h1, h2, h3⟩ := engineApply_progress_filter apply
  obtain ⟨g1, _, g3, g4, g5⟩ := engineApply_progress_pairs apply
  refine ⟨h1, h2, h3, g1, g3, g4, g5, ?_⟩
  rw [g4, failedIn_iff_handed]
  constructor
  · intro h p hp
    cases hf : (p.1.Apply p.2).1.failed with
    | false => rfl
    | true => exact absurd ⟨p, hp, hf⟩ h
  · rintro h ⟨p, hp, hf⟩
    rw [h p hp] at hf
    exact absurd hf (by decide)

end Aptomi
